import Mathlib

/-
  Verification of the Relational Graph Language (RGL) engine of the dgtm
  repository (src/dgtm.py, class DynamicGraphTextualModel).

  Python strings are modelled as `List Char`; the regex
  `(\d+):(\d+)>(\d+)\(p([\d.]+),(\d+)\)` used with `re.match` is modelled by a
  deterministic maximal-munch scanner `parseStmt` (each captured group is
  followed by a delimiter outside its character class, so greedy matching is
  exact); probabilities are modelled as exact rationals (Python parses the
  decimal literals with `float`; every quantity compared in the theorems below
  is a short decimal where double rounding is exact), and the `:.2f` formatting
  of merged probabilities is modelled by `fmt2` (round half up at two decimals;
  Python rounds the underlying binary double to nearest, which agrees with this
  on all values appearing below, none of which is a tie).  Exceptions raised by
  the Python code (`ValueError` from `float(...)` or from the probability range
  check) are modelled with `Except Unit`.
-/

set_option maxRecDepth 40000

namespace DGTMModel

/-- Characters of a Python `str` are modelled as a list of characters. -/
abbrev Str := List Char

/-- Model of the regex class `\d` (the texts this program builds are ASCII). -/
def isDig (c : Char) : Bool := c.isDigit

/-- Model of Python `text.split(";")`: split at every semicolon, keeping
empty chunks (so `"".split(";") == [""]`). -/
def splitSemi : Str → List Str
  | [] => [[]]
  | c :: rest =>
    if c = ';' then [] :: splitSemi rest
    else
      match splitSemi rest with
      | [] => [[c]]
      | h :: t => (c :: h) :: t

/-- Model of Python `";".join(chunks)`. -/
def joinSemi : List Str → Str
  | [] => []
  | [s] => s
  | s :: rest => s ++ ';' :: joinSemi rest

/-- Model of `dict.fromkeys(l)` used on line 183 of src/dgtm.py: keep the
first occurrence of every element, in order. -/
def dedupFirst : List Str → List Str
  | [] => []
  | x :: xs => x :: (dedupFirst xs).filter (fun y => y ≠ x)

/-- The five capture groups of the statement regex
`(\d+):(\d+)>(\d+)\(p([\d.]+),(\d+)\)`. -/
structure RawStmt where
  main : Str
  sub : Str
  var : Str
  prob : Str
  cond : Str
  deriving DecidableEq

/-- Maximal run of characters satisfying `p`, with the rest. -/
def spanP (p : Char → Bool) : Str → Str × Str
  | [] => ([], [])
  | c :: rest =>
    if p c then
      let s := spanP p rest
      (c :: s.1, s.2)
    else ([], c :: rest)

/-- A nonempty greedy run of characters satisfying `p` (one `X+` regex group),
with the rest of the text. -/
def takeRun (p : Char → Bool) (l : Str) : Option (Str × Str) :=
  let s := spanP p l
  if s.1 = [] then none else some s

/-- One literal character of the regex. -/
def expectCh (c : Char) : Str → Option Str
  | x :: rest => if x = c then some rest else none
  | [] => none

/-- Model of `re.match(r"(\d+):(\d+)>(\d+)\(p([\d.]+),(\d+)\)", text)`.
`re.match` anchors at the start of the text only, so trailing characters are
allowed.  Every group is greedy and is followed by a delimiter outside its
character class, so maximal munch reproduces the regex exactly. -/
def parseStmt (l : Str) : Option RawStmt := do
  let m ← takeRun isDig l
  let l2 ← expectCh ':' m.2
  let s ← takeRun isDig l2
  let l4 ← expectCh '>' s.2
  let v ← takeRun isDig l4
  let l6 ← expectCh '(' v.2
  let l7 ← expectCh 'p' l6
  let p ← takeRun (fun c => isDig c || c = '.') l7
  let l9 ← expectCh ',' p.2
  let c ← takeRun isDig l9
  let _ ← expectCh ')' c.2
  pure ⟨m.1, s.1, v.1, p.1, c.1⟩

/-- The f-string `f"{main}:{sub}>{variable}(p{prob},{condition})"` used to
build statement records in src/dgtm.py. -/
def renderStmt (m s v p c : Str) : Str :=
  m ++ ':' :: s ++ '>' :: v ++ '(' :: 'p' :: p ++ ',' :: c ++ [')']

/-- The merge key text `f"{main_node}:{sub_node}>{variable}"` of line 156. -/
def keyStr (r : RawStmt) : Str := r.main ++ ':' :: r.sub ++ '>' :: r.var

/-- Numeric value of a big-endian string of decimal digits. -/
def digitVal (c : Char) : ℕ := c.toNat - 48

/-- Value of a digit string, most significant digit first. -/
def digitsVal (l : Str) : ℕ := l.foldl (fun a c => 10 * a + digitVal c) 0

/-- The decimal digit character for `d < 10`. -/
def digitChar (d : ℕ) : Char := Char.ofNat (48 + d)

/-- Big-endian decimal digits of `n`, with enough fuel. -/
def natToDigitsAux : ℕ → ℕ → Str
  | 0, _ => []
  | fuel + 1, n => if n = 0 then [] else natToDigitsAux fuel (n / 10) ++ [digitChar (n % 10)]

/-- Model of Python `str(n)` for a natural number `n`. -/
def natToDigits (n : ℕ) : Str := if n = 0 then ['0'] else natToDigitsAux n n

/-- Python `a < b` on the (exact-rational) probability values.  Stated through
the kernel-computable core comparison `Rat.blt`, to which the order on `ℚ` is
definitionally equal, so that concrete runs can be evaluated by `decide`. -/
def qlt (a b : ℚ) : Bool := Rat.blt a b

/-- Python `a <= b` on the probability values (see `qlt`). -/
def qle (a b : ℚ) : Bool := !Rat.blt b a

/-- Addition of probability values.  Equal to `a + b` (see `qadd_eq`); spelled
with the normalizing constructor `mkRat` so that concrete runs reduce inside
the kernel (`Rat.add` itself is irreducible by design). -/
def qadd (a b : ℚ) : ℚ := mkRat (a.num * b.den + b.num * a.den) (a.den * b.den)

/-- Multiplication of probability values (see `qmul_eq`, and `qadd` for why). -/
def qmul (a b : ℚ) : ℚ := mkRat (a.num * b.num) (a.den * b.den)

/-- Model of Python `float(text)` on a capture of `[\d.]+`: defined exactly
when there is at most one dot and at least one digit; the value is the exact
decimal `IP + FP / 10^|FP|` (see `parseProb_val`; Python rounds the decimal to
a double; all comparisons verified below involve short decimals on which this
is faithful). -/
def parseProb (p : Str) : Option ℚ :=
  if (p.all fun c => isDig c || c = '.') && (p.any fun c => isDig c)
      && decide (p.count '.' ≤ 1) then
    let ip := p.takeWhile (fun c => c ≠ '.')
    let fp := (p.dropWhile (fun c => c ≠ '.')).drop 1
    some (mkRat (digitsVal ip * 10 ^ fp.length + digitsVal fp) (10 ^ fp.length))
  else none

/-- Rounding to two decimal places (round half up; Python's `:.2f` rounds the
binary double to nearest, which agrees on every value appearing below). -/
def round2 (q : ℚ) : ℚ := ((round (100 * q) : ℤ) : ℚ) / 100

/-- Kernel-computable `round (100 * q)` for `0 ≤ q`, computed on the reduced
fraction: `⌊100q + 1/2⌋ = ⌊(200num + den) / (2den)⌋` (see `round100_eq`). -/
def round100 (q : ℚ) : ℕ := (200 * q.num.toNat + q.den) / (2 * q.den)

/-- Two decimal digits, left-padded with a zero. -/
def pad2 (m : ℕ) : Str := if m < 10 then '0' :: natToDigits m else natToDigits m

/-- Model of the Python formatting `f"{x:.2f}"` for a nonnegative value. -/
def fmt2 (q : ℚ) : Str :=
  let n : ℕ := round100 q
  natToDigits (n / 100) ++ '.' :: pad2 (n % 100)

/-- The weighted blend of line 157: `old_prob * 0.7 + new_prob * 0.3` (via the
kernel-computable operations; see `blend_eq`). -/
def blend (oldp np : ℚ) : ℚ :=
  qadd (qmul oldp (mkRat 7 10)) (qmul np (mkRat 3 10))

/-- Model of the Python substring test `needle in hay`. -/
def isSubstr (needle hay : Str) : Bool := decide (List.IsInfix needle hay)

/-- First-match lookup in an association list (Python dict access). -/
def lookupA (k : Str) : List (Str × Str) → Option Str
  | [] => none
  | (k2, v) :: rest => if k2 = k then some v else lookupA k rest

/-- Python `dict[k] = v`: replace in place if the key exists, else append. -/
def insertA (k v : Str) : List (Str × Str) → List (Str × Str)
  | [] => [(k, v)]
  | (k2, v2) :: rest => if k2 = k then (k2, v) :: rest else (k2, v2) :: insertA k v rest

/-- The mutable state of a `DynamicGraphTextualModel` instance (the external
`neural_model` pipeline and the unused `similarity_threshold` are omitted;
no modelled operation reads them).  Python dicts are modelled as
insertion-ordered association lists with unique keys. -/
structure DGTM where
  text_graph : Str
  token_dict : List (Str × Str)
  reverse_token_dict : List (Str × Str)
  next_token_id : ℕ
  max_edges_per_node : ℕ
  deriving DecidableEq

/-- Method `_get_token` (lines 112-119): intern a term, allocating the next
token id when the term is new. -/
def getToken (s : DGTM) (term : Str) : DGTM × Str :=
  match lookupA term s.token_dict with
  | some tok => (s, tok)
  | none =>
    let tok := natToDigits s.next_token_id
    ({ s with
        token_dict := insertA term tok s.token_dict,
        reverse_token_dict := insertA tok term s.reverse_token_dict,
        next_token_id := s.next_token_id + 1 }, tok)

/-- Method `_reverse_token` (lines 233-235): `reverse_token_dict.get(tok, tok)`. -/
def reverseToken (s : DGTM) (tok : Str) : Str :=
  (lookupA tok s.reverse_token_dict).getD tok

/-- One iteration of the loop of `_update_text` (lines 150-159), acting on the
accumulated rebuilt list, the `updated` flag and the running `new_prob`
variable (which Python reassigns, so later matches blend with the already
blended value).  A matched statement whose probability capture is not a valid
float makes `float(old_prob)` raise, modelled as `Except.error`. -/
def updStep (newStatement : Str) :
    List Str × Bool × ℚ → Str → Except Unit (List Str × Bool × ℚ)
  | (acc, upd, np), stmt =>
    match parseStmt stmt with
    | none => .ok (acc ++ [stmt], upd, np)
    | some r =>
      match parseProb r.prob with
      | none => .error ()
      | some oldp =>
        if isSubstr (keyStr r) newStatement then
          .ok (acc ++ [renderStmt r.main r.sub r.var (fmt2 (blend oldp np)) r.cond],
               true, blend oldp np)
        else .ok (acc ++ [stmt], upd, np)

/-- Method `_update_text` (lines 145-162): scan all records; every record whose
key text occurs as a substring of the new statement is replaced in place by a
re-rendered record with the blended probability (note: the code tests
`key in new_statement`, a substring test); if no record was updated, the new
statement is appended; empty chunks are dropped by the final join. -/
def updateText (g newStatement : Str) (newProb : ℚ) : Except Unit Str :=
  match (splitSemi g).foldlM (updStep newStatement) ([], false, newProb) with
  | .error e => .error e
  | .ok (acc, upd, _) =>
    .ok (joinSemi ((if upd then acc else acc ++ [newStatement]).filter (fun s => s ≠ [])))

/-- Python `node_edges[main] = node_edges.get(main, 0) + 1`. -/
def bumpCount (counts : List (Str × ℕ)) (n : Str) : List (Str × ℕ) :=
  match counts with
  | [] => [(n, 1)]
  | (m, c) :: rest => if m = n then (m, c + 1) :: rest else (m, c) :: bumpCount rest n

/-- Current count of a node in the tally. -/
def countOf (counts : List (Str × ℕ)) (n : Str) : ℕ :=
  match counts with
  | [] => 0
  | (m, c) :: rest => if m = n then c else countOf rest n

/-- One iteration of `_validate_assertiveness` (lines 169-178): matched records
have their probability converted with `float` (a bad capture raises), range
checked (out of range raises `ValueError`), and tallied; a tally exceeding the
maximum prints a warning (counted here). -/
def valStep (maxE : ℕ) :
    List (Str × ℕ) × ℕ → Str → Except Unit (List (Str × ℕ) × ℕ)
  | (counts, warns), stmt =>
    match parseStmt stmt with
    | none => .ok (counts, warns)
    | some r =>
      match parseProb r.prob with
      | none => .error ()
      | some p =>
        if qlt p 0 || qlt 1 p then .error ()
        else
          let counts2 := bumpCount counts r.main
          if countOf counts2 r.main > maxE then .ok (counts2, warns + 1)
          else .ok (counts2, warns)

/-- Method `_validate_assertiveness` (lines 164-179): returns the number of
fan-out warnings printed, or an error if some probability is invalid.  The
method never writes `text_graph` or the token dictionaries. -/
def validateRun (maxE : ℕ) (g : Str) : Except Unit ℕ :=
  match (splitSemi g).foldlM (valStep maxE) ([], 0) with
  | .error e => .error e
  | .ok (_, warns) => .ok warns

/-- The main-node capture of a record, when the record matches the regex. -/
def mainOf (st : Str) : Option Str := (parseStmt st).map RawStmt.main

/-- The `node_edges` dict built on lines 187-193: insertion-ordered grouping
of the matched records by their main-node capture (unmatched records are
skipped).  The group of a key lists its records in encounter order. -/
def groupByMain : List Str → List (Str × List Str)
  | [] => []
  | s :: rest =>
    match parseStmt s with
    | none => groupByMain rest
    | some r =>
      (r.main, s :: rest.filter (fun t => decide (mainOf t = some r.main))) ::
        (groupByMain rest).filter (fun gr => gr.1 ≠ r.main)

/-- Stable insertion (descending by probability): an element is placed before
the first strictly smaller key, hence after all earlier equal keys, exactly the
tie behaviour of Python `list.sort(key=..., reverse=True)`. -/
def insertDesc (x : Str × ℚ) : List (Str × ℚ) → List (Str × ℚ)
  | [] => [x]
  | y :: ys => if qle y.2 x.2 then x :: y :: ys else y :: insertDesc x ys

/-- Stable descending sort by probability key (line 197). -/
def sortDesc : List (Str × ℚ) → List (Str × ℚ)
  | [] => []
  | x :: xs => insertDesc x (sortDesc xs)

/-- Pair every edge with its parsed probability (the sort key of line 197);
Python evaluates the key on every element before sorting, so one bad
probability capture raises before anything is kept. -/
def keyedOf : List Str → Except Unit (List (Str × ℚ))
  | [] => .ok []
  | e :: rest =>
    match parseStmt e with
    | none => .error ()
    | some r =>
      match parseProb r.prob with
      | none => .error ()
      | some p =>
        match keyedOf rest with
        | .error e2 => .error e2
        | .ok ks => .ok ((e, p) :: ks)

/-- Lines 194-198: a group larger than the limit is sorted by probability
descending (stable) and cut to the first `maxE` records. -/
def pruneGroup (maxE : ℕ) (edges : List Str) : Except Unit (List Str) :=
  if edges.length > maxE then
    match keyedOf edges with
    | .error e => .error e
    | .ok keyed => .ok (((sortDesc keyed).map Prod.fst).take maxE)
  else .ok edges

/-- The dead first assignment of `_optimize_text` (line 185): deduplicated
records, empty chunks dropped, re-joined.  Observable only when the sort key
raises, in which case the instance keeps this text. -/
def dedupJoin (g : Str) : Str :=
  joinSemi ((dedupFirst (splitSemi g)).filter (fun s => s ≠ []))

/-- Prune every group in dict order (lines 194-198); the first raise wins. -/
def mapPrune (maxE : ℕ) : List (Str × List Str) → Except Unit (List (List Str))
  | [] => .ok []
  | gr :: rest =>
    match pruneGroup maxE gr.2 with
    | .error e => .error e
    | .ok k =>
      match mapPrune maxE rest with
      | .error e => .error e
      | .ok ks => .ok (k :: ks)

/-- Method `_optimize_text` (lines 181-201): deduplicate the records, group the
matched ones by main node, cut every oversized group to its `maxE` highest
probability records (stable descending sort), and re-join group by group in
first-occurrence order.  Unmatched records are dropped by the final join. -/
def optimizeText (maxE : ℕ) (g : Str) : Except Unit Str :=
  let stmts := dedupFirst (splitSemi g)
  let groups := groupByMain stmts
  match mapPrune maxE groups with
  | .error e => .error e
  | .ok kept => .ok (joinSemi ((kept.flatten).filter (fun s => s ≠ [])))

/-- Records of the graph text whose main-node capture is `n`. -/
def recordsOfMain (n : Str) (g : Str) : List Str :=
  (splitSemi g).filter (fun st => decide (mainOf st = some n))

/-- Fan-out of a main node in a graph text. -/
def fanout (n : Str) (g : Str) : ℕ := (recordsOfMain n g).length

/-- A selected query answer, carrying the resolved fields used to build the
result string `f"Recomendar {variable}"` and its explanation. -/
structure Candidate where
  sub_meaning : Str
  var_term : Str
  probability : ℚ
  condition : Str
  deriving DecidableEq

/-- Outcome of `process_query`: either the no-match sentinel pair
`("Nenhuma recomendação", "Nenhum ramo relevante encontrado")` or a
recommendation built from the top candidate. -/
inductive QueryResult where
  | noMatch : QueryResult
  | found : Candidate → QueryResult
  deriving DecidableEq

/-- Python `str.lower()` (ASCII; the case-insensitive comparisons proved below
are over ASCII data). -/
def lowerStr (l : Str) : Str := l.map Char.toLower

/-- Python `needle.lower() in hay.lower()`. -/
def containsSub (hay needle : Str) : Bool := isSubstr (lowerStr needle) (lowerStr hay)

/-- The candidate test of lines 212-214: the resolved condition or resolved
main term contains the context (case-insensitive), and the resolved main term
contains the query (case-insensitive). -/
def isCandidate (s : DGTM) (query context : Str) (r : RawStmt) : Bool :=
  (containsSub (reverseToken s r.cond) context
      || containsSub (reverseToken s r.main) context)
    && containsSub (reverseToken s r.main) query

/-- The candidate record appended on lines 215-220. -/
def mkCandidate (s : DGTM) (r : RawStmt) (p : ℚ) : Candidate :=
  ⟨reverseToken s r.sub, reverseToken s r.var, p, reverseToken s r.cond⟩

/-- One iteration of the scan of `process_query` (lines 208-220): matched
candidate records are resolved and collected; `float(prob)` on a bad capture
raises. -/
def candStep (s : DGTM) (query context : Str) :
    Except Unit (List Candidate) → Str → Except Unit (List Candidate) :=
  fun acc stmt =>
    match acc with
    | .error e => .error e
    | .ok l =>
      match parseStmt stmt with
      | none => .ok l
      | some r =>
        if isCandidate s query context r then
          match parseProb r.prob with
          | none => .error ()
          | some p => .ok (l ++ [mkCandidate s r p])
        else .ok l

/-- The `relevant_relations` list of `process_query`. -/
def candidatesOf (s : DGTM) (query context : Str) : Except Unit (List Candidate) :=
  (splitSemi s.text_graph).foldl (candStep s query context) (.ok [])

/-- Python `max(relevant_relations, key=lambda x: x["probability"])`: keeps the
current best and replaces it only on strictly greater keys, so the first
maximum wins ties. -/
def maxByProb (best : Candidate) : List Candidate → Candidate
  | [] => best
  | c :: cs => maxByProb (if qlt best.probability c.probability then c else best) cs

/-- Method `process_query` (lines 203-231).  The state component of the result
is the instance state after the call; the method only reads. -/
def processQuery (s : DGTM) (query context : Str) : DGTM × Except Unit QueryResult :=
  match candidatesOf s query context with
  | .error e => (s, .error e)
  | .ok [] => (s, .ok .noMatch)
  | .ok (c :: cs) => (s, .ok (.found (maxByProb c cs)))

/-- A candidate relation produced by `_extract_relations` (the dicts built on
lines 79-109); the probability is kept as the literal string of the dict, as
`convert_raw_data` embeds it verbatim into the statement text. -/
structure Relation where
  meaning : Str
  sub_meaning : Str
  variable_term : Str
  probability : Str
  condition : Str
  deriving DecidableEq

/-- The first hard-coded relation (lines 79-85). -/
def relJust1 : Relation :=
  ⟨"justiça".toList, "justiça distributiva".toList, "necessidade".toList,
    "0.9".toList, "crise".toList⟩

/-- The second hard-coded relation (lines 86-92). -/
def relJust2 : Relation :=
  ⟨"justiça".toList, "justiça retributiva".toList, "punição".toList,
    "0.7".toList, "crime".toList⟩

/-- The third hard-coded relation (lines 93-100). -/
def relCrise : Relation :=
  ⟨"economia".toList, "crise econômica".toList, "auxílio".toList,
    "0.95".toList, "2025".toList⟩

/-- The fourth hard-coded relation (lines 102-109). -/
def relTemp : Relation :=
  ⟨"ambiente".toList, "temperatura".toList, "conforto".toList,
    "0.8".toList, "verão".toList⟩

/-- Method `_extract_relations` (lines 74-110): keyword-triggered hard-coded
relations. -/
def extractRelations (raw : Str) : List Relation :=
  (if isSubstr ("justiça".toList) (lowerStr raw) then [relJust1, relJust2] else []) ++
    (if isSubstr ("crise".toList) (lowerStr raw) then [relCrise] else []) ++
    (if isSubstr ("temperatura".toList) (lowerStr raw) then [relTemp] else [])

/-- Lines 62-67: intern the four terms of one relation in order and render its
statement record. -/
def internRelation (s : DGTM) (rel : Relation) : DGTM × Str :=
  let r1 := getToken s rel.meaning
  let r2 := getToken r1.1 rel.sub_meaning
  let r3 := getToken r2.1 rel.variable_term
  let r4 := getToken r3.1 rel.condition
  (r4.1, renderStmt r1.2 r2.2 r3.2 rel.probability r4.2)

/-- The loop of lines 61-68: starting from the cleared graph, intern every
relation and append its record plus a semicolon. -/
def buildGraph (s : DGTM) (rels : List Relation) : DGTM × Str :=
  rels.foldl
    (fun acc rel =>
      let r := internRelation acc.1 rel
      (r.1, acc.2 ++ r.2 ++ [';']))
    ({ s with text_graph := [] }, [])

/-- Method `convert_raw_data` (lines 56-72): discard the graph text, rebuild it
from the freshly extracted relations (interning their terms as a side effect),
validate, then optimize.  A raise leaves the instance with the text it had at
the raise site: the freshly built text if validation raises, the dead line-185
text if the sort key raises. -/
def convertRawData (s : DGTM) (raw : Str) : DGTM × Except Unit Str :=
  let p := buildGraph s (extractRelations raw)
  match validateRun p.1.max_edges_per_node p.2 with
  | .error _ => ({ p.1 with text_graph := p.2 }, .error ())
  | .ok _ =>
    match optimizeText p.1.max_edges_per_node p.2 with
    | .error _ => ({ p.1 with text_graph := dedupJoin p.2 }, .error ())
    | .ok h => ({ p.1 with text_graph := h }, .ok h)

/-- A record is probability-wellformed when, if it matches the statement
regex, its probability capture is a valid float.  Every record this program
itself writes satisfies this; a record that fails it makes the Python
`float(...)` calls raise `ValueError`. -/
def probOk (t : Str) : Bool :=
  match parseStmt t with
  | none => true
  | some r => (parseProb r.prob).isSome

/-- Ingesting a list of pre-rendered statements (with their probability
values) one by one through `_update_text`, as the loop of `maintain_graph`
(lines 127-135) does. -/
def ingestList : Str → List (Str × ℚ) → Except Unit Str
  | g, [] => .ok g
  | g, (st, p) :: rest =>
    match updateText g st p with
    | .error e => .error e
    | .ok g2 => ingestList g2 rest

/-- The persisted document of `save_model` (lines 237-246): the four fields of
the JSON object.  `json.dump`/`json.load` of a flat dict of strings and an int
is lossless, so the file layer is abstracted into this record. -/
structure SavedModel where
  text_graph : Str
  token_dict : List (Str × Str)
  reverse_token_dict : List (Str × Str)
  next_token_id : ℕ
  deriving DecidableEq

/-- Method `save_model` (lines 237-246). -/
def save_model (s : DGTM) : SavedModel :=
  ⟨s.text_graph, s.token_dict, s.reverse_token_dict, s.next_token_id⟩

/-- Method `load_model` (lines 248-256): overwrite the four persisted fields,
leaving the rest of the instance unchanged. -/
def load_model (s : DGTM) (d : SavedModel) : DGTM :=
  { s with
      text_graph := d.text_graph,
      token_dict := d.token_dict,
      reverse_token_dict := d.reverse_token_dict,
      next_token_id := d.next_token_id }

/-- Decidable equality of run results, for evaluating concrete runs. -/
instance {ε α : Type} [DecidableEq ε] [DecidableEq α] : DecidableEq (Except ε α) :=
  fun a b =>
  match a, b with
  | .ok x, .ok y =>
    match decEq x y with
    | isTrue h => isTrue (congrArg Except.ok h)
    | isFalse h => isFalse fun hc => h (Except.ok.inj hc)
  | .error x, .error y =>
    match decEq x y with
    | isTrue h => isTrue (congrArg Except.error h)
    | isFalse h => isFalse fun hc => h (Except.error.inj hc)
  | .ok _, .error _ => isFalse fun hc => Except.noConfusion hc
  | .error _, .ok _ => isFalse fun hc => Except.noConfusion hc

/-- Splitting always yields at least one chunk. -/
lemma splitSemi_ne_nil (l : Str) : splitSemi l ≠ [] := by
  cases l with
  | nil => simp [splitSemi]
  | cons c rest =>
    simp only [splitSemi]
    split
    · simp
    · cases h : splitSemi rest <;> simp

/-- No chunk produced by splitting contains a semicolon. -/
lemma splitSemi_chunks : ∀ l : Str, ∀ c ∈ splitSemi l, ';' ∉ c := by
  intro l
  induction l with
  | nil => intro c hc; simp [splitSemi] at hc; simp [hc]
  | cons a rest ih =>
    intro c hc
    by_cases ha : a = ';'
    · simp only [splitSemi, if_pos ha] at hc
      rcases List.mem_cons.mp hc with h | h
      · simp [h]
      · exact ih c h
    · rcases h2 : splitSemi rest with _ | ⟨b, t⟩
      · exact absurd h2 (splitSemi_ne_nil rest)
      · simp only [splitSemi, if_neg ha, h2] at hc
        rcases List.mem_cons.mp hc with h | h
        · subst h
          intro hmem
          rcases List.mem_cons.mp hmem with h3 | h3
          · exact ha h3.symm
          · exact ih b (by rw [h2]; exact List.mem_cons_self b t) h3
        · exact ih c (by rw [h2]; exact List.mem_cons_of_mem b h)

/-- Splitting a semicolon-free string yields that single chunk. -/
lemma splitSemi_nosemi (l : Str) (h : ';' ∉ l) : splitSemi l = [l] := by
  induction l with
  | nil => simp [splitSemi]
  | cons a rest ih =>
    have ha : a ≠ ';' := fun hc => h (by simp [hc])
    have hr : ';' ∉ rest := fun hc => h (by simp [hc])
    simp only [splitSemi, if_neg (fun hc => ha hc), ih hr]

/-- Splitting past one leading semicolon-free chunk. -/
lemma splitSemi_append (a t : Str) (h : ';' ∉ a) :
    splitSemi (a ++ ';' :: t) = a :: splitSemi t := by
  induction a with
  | nil => simp [splitSemi]
  | cons x rest ih =>
    have hx : x ≠ ';' := fun hc => h (by simp [hc])
    have hr : ';' ∉ rest := fun hc => h (by simp [hc])
    have h2 := ih hr
    simp only [List.cons_append, splitSemi, if_neg (fun hc => hx hc), List.append_eq, h2]

/-- Splitting inverts joining on a nonempty list of semicolon-free chunks. -/
lemma splitSemi_joinSemi : ∀ K : List Str, K ≠ [] → (∀ c ∈ K, ';' ∉ c) →
    splitSemi (joinSemi K) = K := by
  intro K
  induction K with
  | nil => intro h; exact absurd rfl h
  | cons c rest ih =>
    intro _ hall
    cases rest with
    | nil => simpa [joinSemi] using splitSemi_nosemi c (hall c (by simp))
    | cons d t =>
      have : joinSemi (c :: d :: t) = c ++ ';' :: joinSemi (d :: t) := rfl
      rw [this, splitSemi_append c _ (hall c (by simp)),
        ih (by simp) (fun x hx => hall x (by simp [hx]))]

/-- Deduplicated records keep only members of the original list. -/
lemma dedupFirst_subset : ∀ l : List Str, ∀ x ∈ dedupFirst l, x ∈ l := by
  intro l
  induction l with
  | nil => simp [dedupFirst]
  | cons a rest ih =>
    intro x hx
    simp only [dedupFirst] at hx
    rcases List.mem_cons.mp hx with h | h
    · simp [h]
    · exact List.mem_cons_of_mem a (ih x (List.mem_of_mem_filter h))

/-- Deduplication produces a duplicate-free list. -/
lemma dedupFirst_nodup : ∀ l : List Str, (dedupFirst l).Nodup := by
  intro l
  induction l with
  | nil => simp [dedupFirst]
  | cons a rest ih =>
    simp only [dedupFirst, List.nodup_cons]
    refine ⟨fun hmem => ?_, List.Nodup.filter _ ih⟩
    have := List.of_mem_filter hmem
    simp at this

/-- Deduplication is the identity on a duplicate-free list. -/
lemma dedupFirst_eq_self : ∀ l : List Str, l.Nodup → dedupFirst l = l := by
  intro l
  induction l with
  | nil => intro _; rfl
  | cons a rest ih =>
    intro h
    rcases List.nodup_cons.mp h with ⟨ha, hrest⟩
    simp only [dedupFirst, ih hrest]
    rw [List.filter_eq_self.mpr]
    intro x hx
    simp only [ne_eq, decide_eq_true_eq]
    exact fun hxa => ha (hxa ▸ hx)

/-- A span decomposes its input. -/
lemma spanP_eq_append (p : Char → Bool) : ∀ l : Str, (spanP p l).1 ++ (spanP p l).2 = l := by
  intro l
  induction l with
  | nil => rfl
  | cons c rest ih =>
    simp only [spanP]
    split
    · simpa using ih
    · rfl

/-- Every character of the first span component satisfies the predicate. -/
lemma spanP_fst_all (p : Char → Bool) : ∀ l : Str, ∀ x ∈ (spanP p l).1, p x = true := by
  intro l
  induction l with
  | nil => simp [spanP]
  | cons c rest ih =>
    intro x hx
    simp only [spanP] at hx
    split at hx
    · rcases List.mem_cons.mp hx with h | h
      · subst h; assumption
      · exact ih x h
    · simp at hx

/-- Maximal munch: a run of satisfying characters followed by a failing
character spans exactly that run. -/
lemma spanP_exact (p : Char → Bool) : ∀ a : Str, ∀ c : Char, ∀ r : Str,
    (∀ x ∈ a, p x = true) → p c = false → spanP p (a ++ c :: r) = (a, c :: r) := by
  intro a
  induction a with
  | nil => intro c r _ hc; simp [spanP, hc]
  | cons x rest ih =>
    intro c r hall hc
    have hx : p x = true := hall x (by simp)
    have h2 := ih c r (fun y hy => hall y (by simp [hy])) hc
    simp only [List.cons_append, spanP, hx, if_pos, List.append_eq, h2]

/-- Inversion for a successful greedy run. -/
lemma takeRun_some (p : Char → Bool) (l a b : Str) (h : takeRun p l = some (a, b)) :
    l = a ++ b ∧ a ≠ [] ∧ ∀ x ∈ a, p x = true := by
  simp only [takeRun] at h
  split at h
  · exact absurd h (by simp)
  · rename_i hne
    injection h with h2
    have e1 : (spanP p l).1 = a := by rw [h2]
    have e2 : (spanP p l).2 = b := by rw [h2]
    refine ⟨?_, ?_, ?_⟩
    · rw [← e1, ← e2, spanP_eq_append]
    · rw [← e1]; exact hne
    · intro x hx; exact spanP_fst_all p l x (e1 ▸ hx)

/-- Construction of a greedy run from a maximal-munch decomposition. -/
lemma takeRun_exact (p : Char → Bool) (a : Str) (c : Char) (r : Str)
    (ha : ∀ x ∈ a, p x = true) (hne : a ≠ []) (hc : p c = false) :
    takeRun p (a ++ c :: r) = some (a, c :: r) := by
  unfold takeRun
  rw [spanP_exact p a c r ha hc]
  simp [hne]

/-- Inversion for a literal character. -/
lemma expectCh_some (c : Char) (l r : Str) (h : expectCh c l = some r) : l = c :: r := by
  cases l with
  | nil => exact absurd h (by simp [expectCh])
  | cons x rest =>
    by_cases hx : x = c
    · subst hx
      simp only [expectCh, if_pos rfl] at h
      injection h with h2
      rw [h2]
    · simp [expectCh, hx] at h

/-- The statement grammar as the specification states it: the text starts
(`re.match` allows trailing characters) with
`DIGITS:DIGITS>DIGITS(pPROB,DIGITS)`, where each `DIGITS` group is a nonempty
digit run and `PROB` is a nonempty run over digits and dots (the regex class
`[\d.]+`). -/
def GrammarMatch (l : Str) (r : RawStmt) : Prop :=
  (∃ rest, l = renderStmt r.main r.sub r.var r.prob r.cond ++ rest) ∧
    r.main ≠ [] ∧ (∀ c ∈ r.main, isDig c = true) ∧
    r.sub ≠ [] ∧ (∀ c ∈ r.sub, isDig c = true) ∧
    r.var ≠ [] ∧ (∀ c ∈ r.var, isDig c = true) ∧
    r.prob ≠ [] ∧ (∀ c ∈ r.prob, (isDig c || c = '.') = true) ∧
    r.cond ≠ [] ∧ (∀ c ∈ r.cond, isDig c = true)

/-- Soundness: a successful parse exhibits a grammar decomposition. -/
lemma grammar_of_parseStmt (l : Str) (r : RawStmt) (h : parseStmt l = some r) :
    GrammarMatch l r := by
  simp only [parseStmt, Option.bind_eq_bind, Option.bind_eq_some, Option.pure_def,
    Option.some.injEq] at h
  obtain ⟨m, hm, l2, hl2, s, hs, l4, hl4, v, hv, l6, hl6, l7, hl7, p, hp, l9, hl9,
    c, hc, l11, hl11, hr⟩ := h
  obtain ⟨hm1, hm2, hm3⟩ := takeRun_some _ _ _ _ hm
  have hl2e := expectCh_some _ _ _ hl2
  obtain ⟨hs1, hs2, hs3⟩ := takeRun_some _ _ _ _ hs
  have hl4e := expectCh_some _ _ _ hl4
  obtain ⟨hv1, hv2, hv3⟩ := takeRun_some _ _ _ _ hv
  have hl6e := expectCh_some _ _ _ hl6
  have hl7e := expectCh_some _ _ _ hl7
  obtain ⟨hp1, hp2, hp3⟩ := takeRun_some _ _ _ _ hp
  have hl9e := expectCh_some _ _ _ hl9
  obtain ⟨hc1, hc2, hc3⟩ := takeRun_some _ _ _ _ hc
  have hl11e := expectCh_some _ _ _ hl11
  subst hr
  refine ⟨⟨l11, ?_⟩, hm2, hm3, hs2, hs3, hv2, hv3, hp2, hp3, hc2, hc3⟩
  rw [hm1, hl2e, hs1, hl4e, hv1, hl6e, hl7e, hp1, hl9e, hc1, hl11e]
  simp [renderStmt]

/-- Completeness: a grammar decomposition is found by the parse, and the
capture groups are exactly the decomposition's components. -/
lemma parseStmt_of_grammar (l : Str) (r : RawStmt) (h : GrammarMatch l r) :
    parseStmt l = some r := by
  obtain ⟨⟨rest, hrest⟩, hm2, hm3, hs2, hs3, hv2, hv3, hp2, hp3, hc2, hc3⟩ := h
  subst hrest
  have e1 : renderStmt r.main r.sub r.var r.prob r.cond ++ rest =
      r.main ++ ':' :: (r.sub ++ '>' :: (r.var ++ '(' :: 'p' ::
        (r.prob ++ ',' :: (r.cond ++ ')' :: rest)))) := by
    simp [renderStmt]
  rw [e1]
  have t1 := takeRun_exact isDig r.main ':'
    (r.sub ++ '>' :: (r.var ++ '(' :: 'p' :: (r.prob ++ ',' :: (r.cond ++ ')' :: rest))))
    hm3 hm2 (by decide)
  have t2 := takeRun_exact isDig r.sub '>'
    (r.var ++ '(' :: 'p' :: (r.prob ++ ',' :: (r.cond ++ ')' :: rest))) hs3 hs2 (by decide)
  have t3 := takeRun_exact isDig r.var '('
    ('p' :: (r.prob ++ ',' :: (r.cond ++ ')' :: rest))) hv3 hv2 (by decide)
  have t4 := takeRun_exact (fun c => isDig c || c = '.') r.prob ','
    (r.cond ++ ')' :: rest) hp3 hp2 (by decide)
  have t5 := takeRun_exact isDig r.cond ')' rest hc3 hc2 (by decide)
  simp only [parseStmt, t1, Option.bind_eq_bind, Option.some_bind, expectCh, if_pos,
    t2, t3, t4, t5]
  rfl

/-- Record texts are nonempty (a successful parse consumes at least one
digit). -/
lemma parseStmt_ne_nil (t : Str) (r : RawStmt) (h : parseStmt t = some r) : t ≠ [] := by
  intro he
  subst he
  simp [parseStmt, takeRun, spanP] at h

/-- Zero renders to no digits at any fuel. -/
lemma natToDigitsAux_zero (fuel : ℕ) : natToDigitsAux fuel 0 = [] := by
  cases fuel <;> simp [natToDigitsAux]

/-- Appending one digit multiplies the value by ten and adds it. -/
lemma digitsVal_append_singleton (a : Str) (c : Char) :
    digitsVal (a ++ [c]) = 10 * digitsVal a + digitVal c := by
  simp [digitsVal, List.foldl_append]

/-- Digit characters are digits. -/
lemma digitChar_isDig (d : ℕ) (h : d < 10) : isDig (digitChar d) = true := by
  interval_cases d <;> decide

/-- Digit characters are not dots. -/
lemma digitChar_ne_dot (d : ℕ) (h : d < 10) : digitChar d ≠ '.' := by
  interval_cases d <;> decide

/-- Digit characters decode to their digit. -/
lemma digitVal_digitChar (d : ℕ) (h : d < 10) : digitVal (digitChar d) = d := by
  interval_cases d <;> decide

/-- Rendering is correct given enough fuel. -/
lemma digitsVal_natToDigitsAux (fuel : ℕ) : ∀ n : ℕ, n ≤ fuel →
    digitsVal (natToDigitsAux fuel n) = n := by
  induction fuel with
  | zero =>
    intro n h
    have : n = 0 := Nat.le_zero.mp h
    simp [this, natToDigitsAux, digitsVal]
  | succ fuel ih =>
    intro n h
    by_cases hn : n = 0
    · simp [hn, natToDigitsAux, digitsVal]
    · have hlt : n / 10 ≤ fuel := by
        have h1 : n / 10 < n := Nat.div_lt_self (Nat.pos_of_ne_zero hn) (by norm_num)
        omega
      simp only [natToDigitsAux, if_neg hn]
      rw [digitsVal_append_singleton, ih (n / 10) hlt,
        digitVal_digitChar (n % 10) (Nat.mod_lt _ (by norm_num))]
      omega

/-- Model of `str(n)` decodes to `n`. -/
lemma digitsVal_natToDigits (n : ℕ) : digitsVal (natToDigits n) = n := by
  by_cases hn : n = 0
  · simp [hn, natToDigits, digitsVal, digitVal]
  · simp only [natToDigits, if_neg hn]
    exact digitsVal_natToDigitsAux n n le_rfl

/-- Every character the renderer produces is a digit (hence not a dot). -/
lemma natToDigitsAux_digits (fuel : ℕ) : ∀ n : ℕ, ∀ c ∈ natToDigitsAux fuel n,
    isDig c = true ∧ c ≠ '.' := by
  induction fuel with
  | zero => intro n c hc; simp [natToDigitsAux] at hc
  | succ fuel ih =>
    intro n c hc
    by_cases hn : n = 0
    · simp [hn, natToDigitsAux] at hc
    · simp only [natToDigitsAux, if_neg hn, List.mem_append, List.mem_singleton] at hc
      rcases hc with h | h
      · exact ih (n / 10) c h
      · subst h
        have hm : n % 10 < 10 := Nat.mod_lt _ (by norm_num)
        exact ⟨digitChar_isDig _ hm, digitChar_ne_dot _ hm⟩

/-- Every character of `str(n)` is a digit. -/
lemma natToDigits_digits (n : ℕ) : ∀ c ∈ natToDigits n, isDig c = true ∧ c ≠ '.' := by
  intro c hc
  by_cases hn : n = 0
  · simp [hn, natToDigits] at hc
    simp [hc]
    decide
  · simp only [natToDigits, if_neg hn] at hc
    exact natToDigitsAux_digits n n c hc

/-- `str(n)` is never empty. -/
lemma natToDigits_ne_nil (n : ℕ) : natToDigits n ≠ [] := by
  by_cases hn : n = 0
  · simp [hn, natToDigits]
  · simp only [natToDigits, if_neg hn]
    obtain ⟨k, rfl⟩ := Nat.exists_eq_succ_of_ne_zero hn
    simp [natToDigitsAux]

/-- A one-digit number renders to its single digit character. -/
lemma natToDigits_lt10 (n : ℕ) (h : n < 10) : natToDigits n = [digitChar n] := by
  by_cases hn : n = 0
  · subst hn; decide
  · simp only [natToDigits, if_neg hn]
    obtain ⟨k, rfl⟩ := Nat.exists_eq_succ_of_ne_zero hn
    simp only [natToDigitsAux, if_neg hn]
    rw [Nat.div_eq_of_lt h, natToDigitsAux_zero, Nat.mod_eq_of_lt h]
    rfl

/-- A two-digit number renders to exactly its two digit characters. -/
lemma natToDigitsAux_two (fuel m : ℕ) (h1 : 10 ≤ m) (h2 : m < 100) (hf : m ≤ fuel) :
    natToDigitsAux fuel m = [digitChar (m / 10), digitChar (m % 10)] := by
  obtain ⟨f, rfl⟩ : ∃ f, fuel = f + 1 := ⟨fuel - 1, by omega⟩
  simp only [natToDigitsAux, if_neg (by omega : ¬m = 0)]
  have hq2 : m / 10 < 10 := Nat.div_lt_of_lt_mul (by omega)
  have hqf : 9 ≤ f := by omega
  obtain ⟨e, rfl⟩ : ∃ e, f = e + 1 := ⟨f - 1, by omega⟩
  have hstep : natToDigitsAux (e + 1) (m / 10) = [digitChar (m / 10)] := by
    simp only [natToDigitsAux,
      if_neg (by
        have := (Nat.one_le_div_iff (by norm_num : 0 < 10)).mpr h1
        omega : ¬m / 10 = 0)]
    rw [Nat.div_eq_of_lt hq2, natToDigitsAux_zero, Nat.mod_eq_of_lt hq2]
    rfl
  rw [hstep]
  rfl

/-- The two-digit zero-padded fraction field: its characters, value, and
length. -/
lemma pad2_spec (m : ℕ) (h : m < 100) :
    (∀ c ∈ pad2 m, isDig c = true ∧ c ≠ '.') ∧ digitsVal (pad2 m) = m ∧
      (pad2 m).length = 2 := by
  by_cases hm : m < 10
  · simp only [pad2, if_pos hm, natToDigits_lt10 m hm]
    refine ⟨?_, ?_, rfl⟩
    · intro c hc
      rcases List.mem_cons.mp hc with h1 | h1
      · subst h1; exact ⟨by decide, by decide⟩
      · rcases List.mem_singleton.mp h1 with rfl
        exact ⟨digitChar_isDig m hm, digitChar_ne_dot m hm⟩
    · show digitsVal ('0' :: [digitChar m]) = m
      have : digitsVal ['0', digitChar m] = 10 * digitsVal ['0'] + digitVal (digitChar m) := by
        have := digitsVal_append_singleton ['0'] (digitChar m)
        simpa using this
      simp only [this, digitVal_digitChar m hm]
      have : digitsVal ['0'] = 0 := by decide
      simp [this]
  · have h10 : 10 ≤ m := Nat.le_of_not_lt hm
    simp only [pad2, if_neg hm]
    refine ⟨natToDigits_digits m, digitsVal_natToDigits m, ?_⟩
    simp only [natToDigits, if_neg (by omega : ¬m = 0)]
    rw [natToDigitsAux_two m m h10 h le_rfl]
    rfl

/-- Splitting a rendered decimal at its dot. -/
lemma takeDrop_dot (a f : Str) (ha : ∀ c ∈ a, c ≠ '.') :
    (a ++ '.' :: f).takeWhile (fun c => c ≠ '.') = a ∧
      (a ++ '.' :: f).dropWhile (fun c => c ≠ '.') = '.' :: f := by
  induction a with
  | nil => constructor <;> simp [List.takeWhile, List.dropWhile]
  | cons x rest ih =>
    have hx : x ≠ '.' := ha x (by simp)
    have hr := ih fun c hc => ha c (by simp [hc])
    constructor
    · simp only [List.cons_append, List.takeWhile_cons, decide_eq_true_eq]
      rw [if_pos hx, hr.1]
    · simp only [List.cons_append, List.dropWhile_cons, decide_eq_true_eq]
      rw [if_pos hx, hr.2]

/-- Rounding a nonnegative number is nonnegative. -/
lemma round_nonneg_of_nonneg (x : ℚ) (h : 0 ≤ x) : 0 ≤ round x := by
  rw [round_eq]
  exact Int.floor_nonneg.mpr (by linarith)

/-- The computable strict comparison is the order on `ℚ`. -/
lemma qlt_iff (a b : ℚ) : qlt a b = true ↔ a < b := Iff.rfl

/-- The computable non-strict comparison is the order on `ℚ`. -/
lemma qle_iff (a b : ℚ) : qle a b = true ↔ a ≤ b := by
  rw [qle, Bool.not_eq_true']
  constructor
  · intro hb
    refine not_lt.mp fun hlt => ?_
    have : Rat.blt b a = true := hlt
    rw [hb] at this
    exact Bool.false_ne_true this
  · intro hle
    cases hb : Rat.blt b a
    · rfl
    · exact absurd (show b < a from hb) (not_lt.mpr hle)

/-- Denominator casts are nonzero. -/
lemma den_cast_ne (a : ℚ) : ((a.den : ℕ) : ℚ) ≠ 0 := by
  exact_mod_cast Nat.pos_iff_ne_zero.mp a.pos

/-- The computable addition is addition on `ℚ`. -/
lemma qadd_eq (a b : ℚ) : qadd a b = a + b := by
  rw [qadd, Rat.mkRat_eq_divInt, Rat.divInt_eq_div]
  conv_rhs => rw [← Rat.num_div_den a, ← Rat.num_div_den b]
  push_cast
  field_simp

/-- The computable multiplication is multiplication on `ℚ`. -/
lemma qmul_eq (a b : ℚ) : qmul a b = a * b := by
  rw [qmul, Rat.mkRat_eq_divInt, Rat.divInt_eq_div]
  conv_rhs => rw [← Rat.num_div_den a, ← Rat.num_div_den b]
  push_cast
  field_simp

/-- The computable blend is the weighted average of the specification. -/
lemma blend_eq (a b : ℚ) : blend a b = a * (7 / 10) + b * (3 / 10) := by
  have h7 : (mkRat 7 10 : ℚ) = 7 / 10 := by
    rw [Rat.mkRat_eq_divInt, Rat.divInt_eq_div]; norm_num
  have h3 : (mkRat 3 10 : ℚ) = 3 / 10 := by
    rw [Rat.mkRat_eq_divInt, Rat.divInt_eq_div]; norm_num
  rw [blend, qadd_eq, qmul_eq, qmul_eq, h7, h3]

/-- The parsed probability is the exact decimal value of the capture. -/
lemma parseProb_val (p : Str) (q : ℚ) (h : parseProb p = some q) :
    q = (digitsVal (p.takeWhile fun c => c ≠ '.') : ℚ)
      + (digitsVal ((p.dropWhile fun c => c ≠ '.').drop 1) : ℚ)
        / (10 : ℚ) ^ ((p.dropWhile fun c => c ≠ '.').drop 1).length := by
  unfold parseProb at h
  split at h
  · injection h with h2
    rw [← h2, Rat.mkRat_eq_divInt, Rat.divInt_eq_div]
    have hp : ((10 : ℚ)) ^ ((p.dropWhile fun c => c ≠ '.').drop 1).length ≠ 0 := by
      positivity
    push_cast
    field_simp
  · exact absurd h (by simp)

/-- Parsed probabilities are nonnegative (the capture has no sign). -/
lemma parseProb_nonneg (p : Str) (q : ℚ) (h : parseProb p = some q) : 0 ≤ q := by
  rw [parseProb_val p q h]
  positivity

/-- The computable rounding agrees with `round (100 * q)` on nonnegative
values. -/
lemma round100_eq (q : ℚ) (h : 0 ≤ q) : (round100 q : ℤ) = round (100 * q) := by
  have hnum : 0 ≤ q.num := Rat.num_nonneg.mpr h
  have hdenpos : 0 < q.den := q.pos
  rw [round_eq]
  have hden0 : ((q.den : ℕ) : ℚ) ≠ 0 := by
    exact_mod_cast Nat.pos_iff_ne_zero.mp hdenpos
  have hqd : ((q.num : ℤ) : ℚ) = q * ((q.den : ℕ) : ℚ) := by
    have h0 := Rat.num_div_den q
    rw [div_eq_iff hden0] at h0
    exact h0
  have hD : 0 < 2 * q.den := by omega
  have hDq : (0 : ℚ) < ((2 * q.den : ℕ) : ℚ) := by exact_mod_cast hD
  have htn : ((q.num.toNat : ℕ) : ℚ) = ((q.num : ℤ) : ℚ) := by
    exact_mod_cast congrArg (fun z : ℤ => (z : ℚ)) (Int.toNat_of_nonneg hnum)
  have e1 : 100 * q + 1 / 2
      = ((200 * q.num.toNat + q.den : ℕ) : ℚ) / ((2 * q.den : ℕ) : ℚ) := by
    rw [eq_div_iff hDq.ne']
    push_cast
    linarith [hqd, htn]
  rw [e1]
  symm
  rw [Int.floor_eq_iff]
  constructor
  · rw [le_div_iff₀ hDq]
    push_cast
    have := Nat.div_mul_le_self (200 * q.num.toNat + q.den) (2 * q.den)
    exact_mod_cast this
  · rw [div_lt_iff₀ hDq]
    push_cast
    set A := 200 * q.num.toNat + q.den with hA
    set B := 2 * q.den with hB
    have h1 : A = B * (A / B) + A % B := (Nat.div_add_mod A B).symm
    have h2 : A % B < B := Nat.mod_lt _ hD
    have h3 : A < (A / B + 1) * B := by
      have h4 : (A / B + 1) * B = B * (A / B) + B := by ring
      omega
    exact_mod_cast h3

/-- Parsing back a two-decimal formatted value yields the rounded value:
`float(f"{q:.2f}")` is `q` rounded to two decimals. -/
lemma parseProb_fmt2 (q : ℚ) (h : 0 ≤ q) : parseProb (fmt2 q) = some (round2 q) := by
  set n : ℕ := round100 q with hn
  have hA := natToDigits_digits (n / 100)
  have hAne := natToDigits_ne_nil (n / 100)
  have hF := pad2_spec (n % 100) (Nat.mod_lt _ (by norm_num))
  have hfmt : fmt2 q = natToDigits (n / 100) ++ '.' :: pad2 (n % 100) := by
    simp only [fmt2, hn]
  rw [hfmt]
  have hall : ((natToDigits (n / 100) ++ '.' :: pad2 (n % 100)).all
      fun c => isDig c || c = '.') = true := by
    rw [List.all_eq_true]
    intro c hc
    rcases List.mem_append.mp hc with h1 | h1
    · simp [(hA c h1).1]
    · rcases List.mem_cons.mp h1 with h2 | h2
      · simp [h2]
      · simp [(hF.1 c h2).1]
  have hany : ((natToDigits (n / 100) ++ '.' :: pad2 (n % 100)).any fun c => isDig c) = true := by
    rw [List.any_eq_true]
    obtain ⟨c, hc⟩ := List.exists_mem_of_ne_nil _ hAne
    exact ⟨c, List.mem_append_left _ hc, (hA c hc).1⟩
  have hcount : ((natToDigits (n / 100) ++ '.' :: pad2 (n % 100)).count '.') ≤ 1 := by
    rw [List.count_append]
    have h1 : (natToDigits (n / 100)).count '.' = 0 :=
      List.count_eq_zero.mpr fun hc => (hA _ hc).2 rfl
    have h2 : (pad2 (n % 100)).count '.' = 0 :=
      List.count_eq_zero.mpr fun hc => (hF.1 _ hc).2 rfl
    rw [h1, List.count_cons]
    simp [h2]
  have htd := takeDrop_dot (natToDigits (n / 100)) (pad2 (n % 100)) fun c hc => (hA c hc).2
  simp only [parseProb, hall, hany, decide_eq_true hcount, Bool.and_true, Bool.true_and,
    if_true, htd.1, htd.2, List.drop_succ_cons, List.drop_zero, Option.some.injEq]
  rw [digitsVal_natToDigits, hF.2.1, hF.2.2]
  rw [Rat.mkRat_eq_divInt, Rat.divInt_eq_div, round2, ← round100_eq q h, ← hn]
  have hmod : n / 100 * 10 ^ 2 + n % 100 = n := by
    show n / 100 * 100 + n % 100 = n
    have := Nat.div_add_mod n 100
    omega
  have hQ : ((((n / 100 : ℕ) : ℤ) * 10 ^ 2 + ((n % 100 : ℕ) : ℤ) : ℤ) : ℚ) = (n : ℚ) := by
    have h2 : (((n / 100 : ℕ) : ℤ) * 10 ^ 2 + ((n % 100 : ℕ) : ℤ) : ℤ) = ((n : ℕ) : ℤ) := by
      exact_mod_cast hmod
    rw [h2, Int.cast_natCast]
  have hB : (((10 ^ 2 : ℕ) : ℤ) : ℚ) = 100 := by norm_num
  have hN : ((n : ℤ) : ℚ) = (n : ℚ) := Int.cast_natCast n
  rw [hQ, hB, hN]

/-- A record that one `_update_text` iteration passes through unchanged:
either it does not match the regex, or it parses with a valid probability and
its key text is not a substring of the new statement. -/
def updSkips (newStatement t : Str) : Prop :=
  match parseStmt t with
  | none => True
  | some r => (parseProb r.prob).isSome ∧ isSubstr (keyStr r) newStatement = false

/-- One update step leaves a skipped record unchanged. -/
lemma updStep_skip (ns t : Str) (acc : List Str) (upd : Bool) (np : ℚ)
    (h : updSkips ns t) : updStep ns (acc, upd, np) t = .ok (acc ++ [t], upd, np) := by
  unfold updSkips at h
  cases hp : parseStmt t with
  | none => simp [updStep, hp]
  | some r =>
    rw [hp] at h
    obtain ⟨q, hq⟩ := Option.isSome_iff_exists.mp h.1
    simp [updStep, hp, hq, h.2]

/-- Folding over a run of skipped records appends them unchanged and keeps the
flag and the running probability. -/
lemma updFold_skips (ns : Str) (l : List Str) (acc : List Str) (upd : Bool) (np : ℚ)
    (h : ∀ t ∈ l, updSkips ns t) :
    l.foldlM (updStep ns) (acc, upd, np) = .ok (acc ++ l, upd, np) := by
  induction l generalizing acc with
  | nil =>
    show Except.ok (acc, upd, np) = Except.ok (acc ++ [], upd, np)
    simp
  | cons t rest ih =>
    rw [List.foldlM_cons, updStep_skip ns t acc upd np (h t (by simp))]
    show rest.foldlM (updStep ns) (acc ++ [t], upd, np) = _
    rw [ih (acc ++ [t]) (fun x hx => h x (by simp [hx]))]
    simp

/-- One update step replaces a matched record by the re-rendered blended
record, sets the flag, and carries the blended value. -/
lemma updStep_match (ns t : Str) (acc : List Str) (upd : Bool) (np : ℚ)
    (r : RawStmt) (oldp : ℚ) (hp : parseStmt t = some r)
    (hprob : parseProb r.prob = some oldp) (hm : isSubstr (keyStr r) ns = true) :
    updStep ns (acc, upd, np) t
      = .ok (acc ++ [renderStmt r.main r.sub r.var (fmt2 (blend oldp np)) r.cond],
             true, blend oldp np) := by
  simp [updStep, hp, hprob, hm]

/-- C2 counterexample — the claim says every existing statement sharing the
incoming merge key gets probability `old*0.7 + incoming*0.3`.  On the graph
`1:2>3(p0.51,4);1:2>3(p0.51,5)` (both records share key `(1,2,3)` with the
incoming statement `1:2>3(p0.0,6)` of probability `0.0`), the blend would be
`0.357` for both, but the code stores `0.36` (two-decimal formatting) for the
first and `0.46` for the second (the running `new_prob` is reassigned, so the
second match blends with the already blended `0.357`, giving `0.4641`,
formatted `0.46`).  Neither stored probability equals `old*0.7+incoming*0.3`. -/
theorem c2_counterexample_stored_probability :
    (parseStmt ("1:2>3(p0.51,4)".toList)).map keyStr
      = (parseStmt ("1:2>3(p0.0,6)".toList)).map keyStr ∧
    (parseStmt ("1:2>3(p0.51,5)".toList)).map keyStr
      = (parseStmt ("1:2>3(p0.0,6)".toList)).map keyStr ∧
    parseProb ("0.51".toList) = some (mkRat 51 100) ∧
    parseProb ("0.0".toList) = some 0 ∧
    updateText ("1:2>3(p0.51,4);1:2>3(p0.51,5)".toList) ("1:2>3(p0.0,6)".toList)
        ((parseProb ("0.0".toList)).getD 0)
      = .ok ("1:2>3(p0.36,4);1:2>3(p0.46,5)".toList) ∧
    parseProb ("0.36".toList) ≠ some (blend (mkRat 51 100) 0) ∧
    parseProb ("0.46".toList) ≠ some (blend (mkRat 51 100) 0) :=
  ⟨by decide, by decide, by decide, by decide, by decide, by decide, by decide⟩

/-- C2 amended — when exactly one stored record matches the incoming
statement (in the code's sense; a record with an equal `(main,sub,variable)`
key always matches), `_update_text` replaces that record in place by the same
key and condition with its probability set to the two-decimal rounding of
`old*0.7 + incoming*0.3`, leaving all other records unchanged and appending
nothing; when several records match, each later match blends with the running
(unrounded) blended value instead of the original incoming probability.  In
particular an existing `p0.5` merged with an incoming `0.9` stores `p0.62`
(see the witness). -/
theorem c2_amended_merge (g ns : Str) (pre post : List Str) (t : Str) (r : RawStmt)
    (oldp np : ℚ)
    (hsplit : splitSemi g = pre ++ t :: post)
    (hpre : ∀ x ∈ pre, updSkips ns x) (hpost : ∀ x ∈ post, updSkips ns x)
    (hp : parseStmt t = some r) (hprob : parseProb r.prob = some oldp)
    (hm : isSubstr (keyStr r) ns = true) (hnp : 0 ≤ np) :
    updateText g ns np
      = .ok (joinSemi ((pre ++ renderStmt r.main r.sub r.var
          (fmt2 (blend oldp np)) r.cond :: post).filter (fun s => s ≠ []))) ∧
    parseProb (fmt2 (blend oldp np)) = some (round2 (blend oldp np)) ∧
    round2 (blend oldp np) = round2 (oldp * (7 / 10) + np * (3 / 10)) := by
  have holdp : 0 ≤ oldp := parseProb_nonneg _ _ hprob
  have hbl : 0 ≤ blend oldp np := by
    rw [blend_eq]
    have h1 : (0 : ℚ) ≤ oldp * (7 / 10) := by positivity
    have h2 : (0 : ℚ) ≤ np * (3 / 10) := by positivity
    linarith
  refine ⟨?_, parseProb_fmt2 _ hbl, by rw [blend_eq]⟩
  have hfold : (splitSemi g).foldlM (updStep ns) (([] : List Str), false, np)
      = .ok (pre ++ renderStmt r.main r.sub r.var (fmt2 (blend oldp np)) r.cond :: post,
             true, blend oldp np) := by
    rw [hsplit, List.foldlM_append, updFold_skips ns pre [] false np hpre]
    show (t :: post).foldlM (updStep ns) (([] : List Str) ++ pre, false, np) = _
    rw [List.foldlM_cons,
      updStep_match ns t (([] : List Str) ++ pre) false np r oldp hp hprob hm]
    show post.foldlM (updStep ns)
        (([] : List Str) ++ pre ++ [renderStmt r.main r.sub r.var
          (fmt2 (blend oldp np)) r.cond], true, blend oldp np) = _
    rw [updFold_skips ns post _ true (blend oldp np) hpost]
    simp
  unfold updateText
  rw [hfold]
  simp

/-- Witness for the amended C2 theorem: merging incoming probability `0.9`
into a stored `p0.5` record with the same key stores exactly `p0.62`. -/
theorem c2_amended_witness :
    (updateText ("1:2>3(p0.5,4)".toList) ("1:2>3(p0.9,5)".toList) (mkRat 9 10)
      = .ok (joinSemi (([] ++ renderStmt ("1".toList) ("2".toList) ("3".toList)
          (fmt2 (blend (mkRat 1 2) (mkRat 9 10))) ("4".toList) :: []).filter
            (fun s => s ≠ []))) ∧
      parseProb (fmt2 (blend (mkRat 1 2) (mkRat 9 10)))
        = some (round2 (blend (mkRat 1 2) (mkRat 9 10))) ∧
      round2 (blend (mkRat 1 2) (mkRat 9 10))
        = round2 (mkRat 1 2 * (7 / 10) + mkRat 9 10 * (3 / 10))) ∧
    joinSemi (([] ++ renderStmt ("1".toList) ("2".toList) ("3".toList)
        (fmt2 (blend (mkRat 1 2) (mkRat 9 10))) ("4".toList) :: []).filter
          (fun s => s ≠ [])) = "1:2>3(p0.62,4)".toList ∧
    round2 (blend (mkRat 1 2) (mkRat 9 10)) = mkRat 62 100 :=
  ⟨c2_amended_merge ("1:2>3(p0.5,4)".toList) ("1:2>3(p0.9,5)".toList) [] []
      ("1:2>3(p0.5,4)".toList)
      ⟨"1".toList, "2".toList, "3".toList, "0.5".toList, "4".toList⟩
      (mkRat 1 2) (mkRat 9 10)
      (by decide) (by simp) (by simp) (by decide) (by decide) (by decide)
      (by decide),
    by decide,
    by
      have h0 : (0 : ℚ) ≤ blend (mkRat 1 2) (mkRat 9 10) := by
        rw [blend_eq]
        norm_num [Rat.mkRat_eq_divInt, Rat.divInt_eq_div]
      have h1 : round100 (blend (mkRat 1 2) (mkRat 9 10)) = 62 := by decide
      rw [round2, ← round100_eq _ h0, h1]
      norm_num [Rat.mkRat_eq_divInt, Rat.divInt_eq_div]⟩

/-- C3 — the claim says a relation merges into an existing statement exactly
when that statement has the same `(main, sub, variable)` token key.  The code
(line 156) instead tests whether the stored statement's key text occurs as a
substring of the new statement's text.  Failing input: stored record
`1:22>3(p0.5,4)` with key `(1,22,3)` and incoming statement
`11:22>33(p0.9,4)` with key `(11,22,33)`: the keys differ, yet `"1:22>3"` is a
substring of `"11:22>33(p0.9,4)"`, so the code merges in place (storing
`0.5*0.7 + 0.9*0.3 = 0.62` under the old condition) and appends nothing, where
the claim requires the existing statement to stay unchanged and a new
statement to be appended. -/
theorem c3_substring_merge_code_bug :
    parseStmt ("1:22>3(p0.5,4)".toList)
      = some ⟨"1".toList, "22".toList, "3".toList, "0.5".toList, "4".toList⟩ ∧
    parseStmt ("11:22>33(p0.9,4)".toList)
      = some ⟨"11".toList, "22".toList, "33".toList, "0.9".toList, "4".toList⟩ ∧
    ("1".toList, "22".toList, "3".toList) ≠ ("11".toList, "22".toList, "33".toList) ∧
    updateText ("1:22>3(p0.5,4)".toList) ("11:22>33(p0.9,4)".toList)
        ((parseProb ("0.9".toList)).getD 0)
      = .ok ("1:22>3(p0.62,4)".toList) :=
  ⟨by decide, by decide, by decide, by decide⟩

/-- C5 — saving stores exactly the four persisted fields (graph text, forward
token map, reverse token map, next-token counter) and loading restores them
exactly, whatever the receiving instance held before: `load(save(x)) == x` on
those fields, the graph text byte for byte. -/
theorem c5_save_load_roundtrip (x receiver : DGTM) :
    (load_model receiver (save_model x)).text_graph = x.text_graph ∧
    (load_model receiver (save_model x)).token_dict = x.token_dict ∧
    (load_model receiver (save_model x)).reverse_token_dict = x.reverse_token_dict ∧
    (load_model receiver (save_model x)).next_token_id = x.next_token_id :=
  ⟨rfl, rfl, rfl, rfl⟩

/-- C9 — `process_query` never mutates the instance: the graph text, both
token maps and the next-token counter are identical before and after the call,
for every state and every query/context pair (including runs that raise). -/
theorem c9_process_query_frame (s : DGTM) (query context : Str) :
    (processQuery s query context).1 = s := by
  unfold processQuery
  split <;> rfl

/-- C8 counterexample — the claim says decoding fails whenever the probability
is outside `[0,1]`; but the text `1:2>3(p5.0,4)` matches the grammar with
probability `5.0 ∉ [0,1]` and the code decodes it into a statement (range
checking happens only in `_validate_assertiveness`). -/
theorem c8_counterexample_decode_out_of_range :
    parseStmt ("1:2>3(p5.0,4)".toList)
      = some ⟨"1".toList, "2".toList, "3".toList, "5.0".toList, "4".toList⟩ ∧
    parseProb ("5.0".toList) = some 5 ∧ ¬((5 : ℚ) ≤ 1) := by
  refine ⟨by decide, by decide, by norm_num⟩

/-- C8 amended — decoding a record succeeds, with exactly one statement as its
result, precisely when the text matches the grammar
`DIGITS:DIGITS>DIGITS(pPROBRUN,DIGITS)` at its start (`re.match` ignores
trailing text, and `PROBRUN` is the regex class run `[\d.]+`, not yet a
checked float); a mismatch yields no statement (callers silently skip the
record, no error value is raised) and the probability is not range checked at
decode time.  Decoding is a pure total function. -/
theorem c8_amended_decode_iff_grammar :
    (∀ l r, parseStmt l = some r ↔ GrammarMatch l r) ∧
    (∀ l r1 r2, GrammarMatch l r1 → GrammarMatch l r2 → r1 = r2) := by
  constructor
  · exact fun l r => ⟨grammar_of_parseStmt l r, parseStmt_of_grammar l r⟩
  · intro l r1 r2 h1 h2
    exact Option.some.inj ((parseStmt_of_grammar l r1 h1).symm.trans
      (parseStmt_of_grammar l r2 h2))

/-- Witness for the amended C8 theorem at a concrete record. -/
theorem c8_amended_witness :
    GrammarMatch ("1:2>3(p0.9,4)".toList)
      ⟨"1".toList, "2".toList, "3".toList, "0.9".toList, "4".toList⟩ :=
  (c8_amended_decode_iff_grammar.1 _ _).mp (by decide)

/-- Inserting a different key does not change a lookup. -/
lemma lookupA_insertA_ne (k v term : Str) (d : List (Str × Str)) (hne : k ≠ term) :
    lookupA term (insertA k v d) = lookupA term d := by
  induction d with
  | nil => simp [insertA, lookupA, hne]
  | cons p rest ih =>
    obtain ⟨k2, v2⟩ := p
    by_cases hk : k2 = k
    · subst hk
      simp [insertA, lookupA, hne]
    · simp only [insertA, if_neg hk, lookupA]
      by_cases ht : k2 = term
      · simp [ht]
      · simp [ht, ih]

/-- Interning one term preserves every existing binding. -/
lemma getToken_preserves (s : DGTM) (t term tok : Str)
    (h : lookupA term s.token_dict = some tok) :
    lookupA term (getToken s t).1.token_dict = some tok := by
  cases hl : lookupA t s.token_dict with
  | some tk => simp [getToken, hl, h]
  | none =>
    have hne : t ≠ term := by
      intro he
      rw [he, h] at hl
      cases hl
    simp only [getToken, hl]
    rw [lookupA_insertA_ne t _ term _ hne]
    exact h

/-- Interning one relation's four terms preserves every existing binding. -/
lemma internRelation_preserves (s : DGTM) (rel : Relation) (term tok : Str)
    (h : lookupA term s.token_dict = some tok) :
    lookupA term (internRelation s rel).1.token_dict = some tok :=
  getToken_preserves _ _ _ _ (getToken_preserves _ _ _ _
    (getToken_preserves _ _ _ _ (getToken_preserves _ _ _ _ h)))

/-- Rebuilding the graph preserves every existing token binding. -/
lemma buildGraph_preserves (s : DGTM) (rels : List Relation) (term tok : Str)
    (h : lookupA term s.token_dict = some tok) :
    lookupA term (buildGraph s rels).1.token_dict = some tok := by
  have hgen : ∀ (l : List Relation) (acc : DGTM × Str),
      lookupA term acc.1.token_dict = some tok →
      lookupA term (l.foldl (fun acc rel =>
        let r := internRelation acc.1 rel
        (r.1, acc.2 ++ r.2 ++ [';'])) acc).1.token_dict = some tok := by
    intro l
    induction l with
    | nil => intro acc hacc; exact hacc
    | cons rel rest ih =>
      intro acc hacc
      exact ih _ (internRelation_preserves acc.1 rel term tok hacc)
  exact hgen rels ({ s with text_graph := [] }, []) h

/-- All exit paths of `convert_raw_data` leave the token dictionary as the
build loop left it. -/
lemma convert_token_dict (s : DGTM) (raw : Str) :
    (convertRawData s raw).1.token_dict
      = (buildGraph s (extractRelations raw)).1.token_dict := by
  simp only [convertRawData]
  split
  · rfl
  · split <;> rfl

/-- C10 — `convert_raw_data` discards the entire existing graph: its result
does not depend on the prior graph text in any way (the text is rebuilt from
the freshly extracted relations alone), while the token registry is preserved
and only grows: every previously interned term keeps its token id. -/
theorem c10_convert_discards_graph_keeps_tokens :
    (∀ (s : DGTM) (raw t t2 : Str),
      convertRawData { s with text_graph := t } raw
        = convertRawData { s with text_graph := t2 } raw) ∧
    (∀ (s : DGTM) (raw term tok : Str),
      lookupA term s.token_dict = some tok →
      lookupA term (convertRawData s raw).1.token_dict = some tok) := by
  constructor
  · intro s raw t t2
    cases s
    rfl
  · intro s raw term tok h
    rw [convert_token_dict]
    exact buildGraph_preserves s (extractRelations raw) term tok h

/-- Witness for C10: a previously interned term keeps its token id across a
conversion that extracts and ingests fresh relations. -/
theorem c10_witness :
    lookupA ("a".toList)
      (convertRawData ⟨[], [("a".toList, "1".toList)], [("1".toList, "a".toList)], 2, 10⟩
        ("justiça".toList)).1.token_dict = some ("1".toList) :=
  c10_convert_discards_graph_keeps_tokens.2 _ _ _ _ (by decide)

/-- A record on which `_validate_assertiveness` raises: it matches the regex
and its parsed probability is strictly outside `[0,1]`. -/
def badRec (t : Str) : Bool :=
  match parseStmt t with
  | none => false
  | some r =>
    match parseProb r.prob with
    | none => false
    | some p => qlt p 0 || qlt 1 p

/-- The method `_validate_assertiveness` as a state transformer: it only reads
the instance. -/
def validate_assertiveness (s : DGTM) : DGTM × Except Unit ℕ :=
  (s, validateRun s.max_edges_per_node s.text_graph)

/-- Bumping one node's tally increments exactly that node's count. -/
lemma countOf_bumpCount (counts : List (Str × ℕ)) (m n : Str) :
    countOf (bumpCount counts m) n = countOf counts n + (if m = n then 1 else 0) := by
  induction counts with
  | nil => by_cases h : m = n <;> simp [bumpCount, countOf, h]
  | cons p rest ih =>
    obtain ⟨k, c⟩ := p
    by_cases hk : k = m
    · subst hk
      by_cases hn : k = n <;> simp [bumpCount, countOf, hn]
    · by_cases hn : k = n
      · subst hn
        have hm : ¬m = k := fun he => hk he.symm
        simp [bumpCount, countOf, hk, hm]
      · simp [bumpCount, countOf, hk, hn, ih]

/-- The validation fold succeeds on good records, tallies the main nodes, and
emits a warning whenever a node's tally crosses the limit. -/
lemma valFold_ok (maxE : ℕ) (l : List Str) (hgood : ∀ t ∈ l, badRec t = false)
    (hwf : ∀ t ∈ l, probOk t = true) :
    ∀ counts warns, ∃ counts2 warns2,
      l.foldlM (valStep maxE) (counts, warns) = .ok (counts2, warns2) ∧
      (∀ n, countOf counts2 n = countOf counts n
        + (l.filter (fun t => decide (mainOf t = some n))).length) ∧
      warns ≤ warns2 ∧
      (∀ n, maxE < countOf counts2 n → maxE < countOf counts n ∨ warns + 1 ≤ warns2) := by
  induction l with
  | nil =>
    intro counts warns
    exact ⟨counts, warns, rfl, by simp, le_rfl, fun n h => Or.inl h⟩
  | cons t rest ih =>
    intro counts warns
    have hgt := hgood t (by simp)
    have hwt := hwf t (by simp)
    have ihr := ih (fun x hx => hgood x (by simp [hx])) (fun x hx => hwf x (by simp [hx]))
    cases hp : parseStmt t with
    | none =>
      have hstep : valStep maxE (counts, warns) t = .ok (counts, warns) := by
        simp [valStep, hp]
      obtain ⟨c2, w2, he, hc, hw, hinv⟩ := ihr counts warns
      refine ⟨c2, w2, ?_, ?_, hw, hinv⟩
      · rw [List.foldlM_cons, hstep]
        exact he
      · intro n
        have hmain : (mainOf t = some n) = False := by
          simp [mainOf, hp]
        simp only [List.filter_cons, hmain]
        simp [hc n]
    | some r =>
      simp only [probOk, hp] at hwt
      obtain ⟨p, hpp⟩ := Option.isSome_iff_exists.mp hwt
      simp only [badRec, hp, hpp] at hgt
      have hstep : valStep maxE (counts, warns) t
          = .ok (bumpCount counts r.main,
              if maxE < countOf (bumpCount counts r.main) r.main then warns + 1 else warns) := by
        simp only [valStep, hp, hpp, hgt, Bool.false_eq_true, if_false]
        split <;> rename_i hcond
        · rfl
        · rfl
      set warns1 := if maxE < countOf (bumpCount counts r.main) r.main then warns + 1 else warns
        with hw1
      obtain ⟨c2, w2, he, hc, hw, hinv⟩ := ihr (bumpCount counts r.main) warns1
      refine ⟨c2, w2, ?_, ?_, ?_, ?_⟩
      · rw [List.foldlM_cons, hstep]
        exact he
      · intro n
        have hmain : (mainOf t = some n) ↔ (r.main = n) := by
          simp [mainOf, hp]
        by_cases hn : r.main = n
        · simp only [List.filter_cons]
          rw [hc n, countOf_bumpCount]
          simp [hmain, hn]
          omega
        · simp only [List.filter_cons]
          rw [hc n, countOf_bumpCount]
          simp [hmain, hn]
      · have : warns ≤ warns1 := by
          rw [hw1]
          split <;> omega
        omega
      · intro n hn2
        rcases hinv n hn2 with hold | hwin
        · by_cases hm : r.main = n
          · subst hm
            right
            rw [countOf_bumpCount] at hold
            simp at hold
            have hcond2 : maxE < countOf (bumpCount counts r.main) r.main := by
              rw [countOf_bumpCount]
              simp
              omega
            have hup : warns + 1 ≤ warns1 := by
              rw [hw1, if_pos hcond2]
            omega
          · left
            rw [countOf_bumpCount] at hold
            simpa [hm] using hold
        · right
          have : warns ≤ warns1 := by
            rw [hw1]
            split <;> omega
          omega

/-- The validation fold raises when some record is bad and every earlier
record is at least probability-parsable. -/
lemma valFold_error (maxE : ℕ) (l : List Str) (hwf : ∀ t ∈ l, probOk t = true)
    (hbad : ∃ t ∈ l, badRec t = true) :
    ∀ counts warns, ∃ e, l.foldlM (valStep maxE) (counts, warns) = .error e := by
  induction l with
  | nil => simp at hbad
  | cons t rest ih =>
    intro counts warns
    have hwt := hwf t (by simp)
    cases hbt : badRec t with
    | true =>
      cases hp : parseStmt t with
      | none => simp only [badRec, hp] at hbt; exact (Bool.false_ne_true hbt).elim
      | some r =>
        cases hpp : parseProb r.prob with
        | none =>
          simp only [badRec, hp, hpp] at hbt
          exact (Bool.false_ne_true hbt).elim
        | some p =>
          simp only [badRec, hp, hpp] at hbt
          have hstep : valStep maxE (counts, warns) t = .error () := by
            simp [valStep, hp, hpp, hbt]
          exact ⟨(), by rw [List.foldlM_cons, hstep]; rfl⟩
    | false =>
      have hbad2 : ∃ x ∈ rest, badRec x = true := by
        rcases hbad with ⟨x, hx, hbx⟩
        rcases List.mem_cons.mp hx with rfl | hx2
        · rw [hbt] at hbx; cases hbx
        · exact ⟨x, hx2, hbx⟩
      have ihr := ih (fun x hx => hwf x (by simp [hx])) hbad2
      cases hp : parseStmt t with
      | none =>
        have hstep : valStep maxE (counts, warns) t = .ok (counts, warns) := by
          simp [valStep, hp]
        obtain ⟨e, he⟩ := ihr counts warns
        exact ⟨e, by rw [List.foldlM_cons, hstep]; exact he⟩
      | some r =>
        simp only [probOk, hp] at hwt
        obtain ⟨p, hpp⟩ := Option.isSome_iff_exists.mp hwt
        simp only [badRec, hp, hpp] at hbt
        have hstep : valStep maxE (counts, warns) t
            = .ok (bumpCount counts r.main,
                if maxE < countOf (bumpCount counts r.main) r.main then warns + 1
                else warns) := by
          simp only [valStep, hp, hpp, hbt, Bool.false_eq_true, if_false]
          split <;> rfl
        obtain ⟨e, he⟩ := ihr (bumpCount counts r.main) _
        exact ⟨e, by rw [List.foldlM_cons, hstep]; exact he⟩

/-- C6 — for every graph whose matched records carry parsable probability
fields (as every record this model writes does), `_validate_assertiveness`
raises exactly when some matched record's probability is outside `[0,1]`
(`badRec`); a node whose fan-out exceeds the limit only makes the run return
at least one warning while still succeeding; and the method never modifies the
instance (graph text or token state). -/
theorem c6_validate_raises_iff_bad_probability (maxE : ℕ) (g : Str)
    (hwf : ∀ t ∈ splitSemi g, probOk t = true) :
    ((validateRun maxE g).isOk = false ↔ ∃ t ∈ splitSemi g, badRec t = true) ∧
    (∀ t r p, parseStmt t = some r → parseProb r.prob = some p →
      (badRec t = true ↔ ¬(0 ≤ p ∧ p ≤ 1))) ∧
    (∀ n, maxE < fanout n g → (∀ t ∈ splitSemi g, badRec t = false) →
      ∃ w, validateRun maxE g = .ok w ∧ 1 ≤ w) ∧
    (∀ s : DGTM, (validate_assertiveness s).1 = s) := by
  refine ⟨?_, ?_, ?_, fun s => rfl⟩
  · constructor
    · intro herr
      by_contra hno
      push_neg at hno
      have hgood : ∀ t ∈ splitSemi g, badRec t = false := by
        intro t ht
        have := hno t ht
        cases h : badRec t
        · rfl
        · exact absurd h this
      obtain ⟨c2, w2, he, _, _, _⟩ := valFold_ok maxE (splitSemi g) hgood hwf [] 0
      have hok : validateRun maxE g = .ok w2 := by simp only [validateRun, he]
      rw [hok] at herr
      simp [Except.isOk, Except.toBool] at herr
    · intro hbad
      obtain ⟨e, he⟩ := valFold_error maxE (splitSemi g) hwf hbad [] 0
      have hko : validateRun maxE g = .error e := by simp only [validateRun, he]
      rw [hko]
      rfl
  · intro t r p hp hpp
    simp only [badRec, hp, hpp]
    rw [Bool.or_eq_true]
    constructor
    · intro h
      rcases h with h | h
      · have := (qlt_iff p 0).mp h
        intro hc
        linarith [hc.1]
      · have := (qlt_iff 1 p).mp h
        intro hc
        linarith [hc.2]
    · intro h
      rcases not_and_or.mp h with h2 | h2
      · exact Or.inl ((qlt_iff p 0).mpr (lt_of_not_le h2))
      · exact Or.inr ((qlt_iff 1 p).mpr (lt_of_not_le h2))
  · intro n hfan hgood
    obtain ⟨c2, w2, he, hc, hw, hinv⟩ := valFold_ok maxE (splitSemi g) hgood hwf [] 0
    refine ⟨w2, by simp only [validateRun, he], ?_⟩
    have hcount : countOf c2 n
        = ((splitSemi g).filter (fun t => decide (mainOf t = some n))).length := by
      have := hc n
      simpa [countOf] using this
    have : maxE < countOf c2 n := by
      rw [hcount]
      exact hfan
    rcases hinv n this with h0 | h1
    · simp [countOf] at h0
    · omega

/-- Witness for C6 at a concrete two-statement graph with limit 1: validation
succeeds with one fan-out warning. -/
theorem c6_witness :
    (((validateRun 1 ("1:2>3(p0.9,4);1:3>4(p0.8,5)".toList)).isOk = false
        ↔ ∃ t ∈ splitSemi ("1:2>3(p0.9,4);1:3>4(p0.8,5)".toList), badRec t = true) ∧
      (∀ t r p, parseStmt t = some r → parseProb r.prob = some p →
        (badRec t = true ↔ ¬(0 ≤ p ∧ p ≤ 1))) ∧
      (∀ n, 1 < fanout n ("1:2>3(p0.9,4);1:3>4(p0.8,5)".toList) →
        (∀ t ∈ splitSemi ("1:2>3(p0.9,4);1:3>4(p0.8,5)".toList), badRec t = false) →
        ∃ w, validateRun 1 ("1:2>3(p0.9,4);1:3>4(p0.8,5)".toList) = .ok w ∧ 1 ≤ w) ∧
      (∀ s : DGTM, (validate_assertiveness s).1 = s)) ∧
    validateRun 1 ("1:2>3(p0.9,4);1:3>4(p0.8,5)".toList) = .ok 1 :=
  ⟨c6_validate_raises_iff_bad_probability 1 _ (by decide), by decide⟩

/-- The candidate list as the specification describes it: the statements of
the graph, in order, that match the regex and satisfy the candidate test,
resolved into candidate records. -/
def candList (s : DGTM) (query context : Str) : List Candidate :=
  (splitSemi s.text_graph).filterMap fun t =>
    match parseStmt t with
    | none => none
    | some r =>
      if isCandidate s query context r then (parseProb r.prob).map (mkCandidate s r)
      else none

/-- The scan of `process_query` collects exactly the candidate list. -/
lemma candFold (s : DGTM) (query context : Str) :
    ∀ (l : List Str) (acc : List Candidate), (∀ t ∈ l, probOk t = true) →
      l.foldl (candStep s query context) (.ok acc)
        = .ok (acc ++ l.filterMap (fun t =>
            match parseStmt t with
            | none => none
            | some r =>
              if isCandidate s query context r then
                (parseProb r.prob).map (mkCandidate s r)
              else none)) := by
  intro l
  induction l with
  | nil => intro acc _; simp
  | cons t rest ih =>
    intro acc hwf
    have hwt := hwf t (by simp)
    rw [List.foldl_cons]
    cases hp : parseStmt t with
    | none =>
      have hstep : candStep s query context (.ok acc) t = .ok acc := by
        simp [candStep, hp]
      rw [hstep, ih acc (fun x hx => hwf x (by simp [hx]))]
      simp [List.filterMap_cons, hp]
    | some r =>
      simp only [probOk, hp] at hwt
      obtain ⟨p, hpp⟩ := Option.isSome_iff_exists.mp hwt
      by_cases hc : isCandidate s query context r = true
      · have hstep : candStep s query context (.ok acc) t = .ok (acc ++ [mkCandidate s r p]) := by
          simp [candStep, hp, hc, hpp]
        rw [hstep, ih _ (fun x hx => hwf x (by simp [hx]))]
        simp [List.filterMap_cons, hp, hc, hpp]
      · have hstep : candStep s query context (.ok acc) t = .ok acc := by
          simp [candStep, hp, hc]
        rw [hstep, ih acc (fun x hx => hwf x (by simp [hx]))]
        simp [List.filterMap_cons, hp, hc]

/-- Python `max` with a key: the returned element is a member, its key is
maximal, and every element strictly before it in the list has a strictly
smaller key (the first maximum wins ties). -/
lemma maxByProb_spec (b : Candidate) (cs : List Candidate) :
    ∃ pre post, b :: cs = pre ++ maxByProb b cs :: post ∧
      (∀ x ∈ b :: cs, x.probability ≤ (maxByProb b cs).probability) ∧
      (∀ x ∈ pre, x.probability < (maxByProb b cs).probability) := by
  induction cs generalizing b with
  | nil =>
    refine ⟨[], [], rfl, ?_, ?_⟩
    · intro x hx
      rcases List.mem_singleton.mp hx with rfl
      exact le_rfl
    · intro x hx
      exact absurd hx (List.not_mem_nil x)
  | cons c cs ih =>
    by_cases h : qlt b.probability c.probability = true
    · have hbc : b.probability < c.probability := (qlt_iff _ _).mp h
      obtain ⟨pre, post, hdec, hub, hpre⟩ := ih c
      have hm : maxByProb b (c :: cs) = maxByProb c cs := by
        simp [maxByProb, h]
      have hcm : c.probability ≤ (maxByProb c cs).probability :=
        hub c (by simp)
      refine ⟨b :: pre, post, ?_, ?_, ?_⟩
      · rw [hm, List.cons_append, ← hdec]
      · intro x hx
        rw [hm]
        rcases List.mem_cons.mp hx with rfl | hx2
        · exact le_of_lt (lt_of_lt_of_le hbc hcm)
        · exact hub x hx2
      · intro x hx
        rw [hm]
        rcases List.mem_cons.mp hx with rfl | hx2
        · exact lt_of_lt_of_le hbc hcm
        · exact hpre x hx2
    · have hcb : c.probability ≤ b.probability := by
        have := (qlt_iff b.probability c.probability)
        have hnot : ¬ b.probability < c.probability := by
          intro hlt
          exact absurd (this.mpr hlt) h
        exact le_of_not_lt hnot
      obtain ⟨pre, post, hdec, hub, hpre⟩ := ih b
      have hm : maxByProb b (c :: cs) = maxByProb b cs := by
        simp [maxByProb, h]
      cases pre with
      | nil =>
        simp only [List.nil_append] at hdec
        have hb : b = maxByProb b cs := (List.cons.inj hdec).1
        have hcs : cs = post := (List.cons.inj hdec).2
        refine ⟨[], c :: cs, by rw [hm, ← hb]; simp, ?_, ?_⟩
        · intro x hx
          rw [hm]
          rcases List.mem_cons.mp hx with rfl | hx2
          · rw [← hb]
          · rcases List.mem_cons.mp hx2 with rfl | hx3
            · rw [← hb]; exact hcb
            · exact hub x (by simp [hx3])
        · intro x hx
          exact absurd hx (List.not_mem_nil x)
      | cons p0 pre2 =>
        simp only [List.cons_append] at hdec
        have hp0 : p0 = b := ((List.cons.inj hdec).1).symm
        have hcs : cs = pre2 ++ maxByProb b cs :: post := (List.cons.inj hdec).2
        have hbm : b.probability < (maxByProb b cs).probability := by
          apply hpre
          rw [hp0]
          simp
        refine ⟨b :: c :: pre2, post, ?_, ?_, ?_⟩
        · rw [hm]
          simp only [List.cons_append]
          rw [← hcs]
        · intro x hx
          rw [hm]
          rcases List.mem_cons.mp hx with rfl | hx2
          · exact le_of_lt hbm
          · rcases List.mem_cons.mp hx2 with rfl | hx3
            · exact le_of_lt (lt_of_le_of_lt hcb hbm)
            · exact hub x (by simp [hx3])
        · intro x hx
          rw [hm]
          rcases List.mem_cons.mp hx with rfl | hx2
          · exact hbm
          · rcases List.mem_cons.mp hx2 with rfl | hx3
            · exact lt_of_le_of_lt hcb hbm
            · apply hpre
              rw [hp0]
              simp [hx3]

/-- C4 — for every state whose matched records have parsable probability
fields, `process_query` collects as candidates exactly the statements whose
resolved condition or main term contains the context and whose resolved main
term contains the query (case-insensitively), in graph order; with no
candidate it returns the no-match sentinel rather than raising; with
candidates it returns the one with maximum probability, the first such on
ties. -/
theorem c4_process_query_selects_first_max (s : DGTM) (query context : Str)
    (hwf : ∀ t ∈ splitSemi s.text_graph, probOk t = true) :
    candidatesOf s query context = .ok (candList s query context) ∧
    ((processQuery s query context).2 = .ok .noMatch ↔ candList s query context = []) ∧
    (candList s query context ≠ [] →
      ∃ top pre post, (processQuery s query context).2 = .ok (.found top) ∧
        candList s query context = pre ++ top :: post ∧
        (∀ x ∈ candList s query context, x.probability ≤ top.probability) ∧
        (∀ x ∈ pre, x.probability < top.probability)) := by
  have hco : candidatesOf s query context = .ok (candList s query context) := by
    rw [candidatesOf, candList]
    exact candFold s query context (splitSemi s.text_graph) [] hwf
  refine ⟨hco, ?_, ?_⟩
  · cases hl : candList s query context with
    | nil =>
      simp only [processQuery, hco, hl]
    | cons c cs =>
      simp only [processQuery, hco, hl]
      constructor
      · intro hcontra
        injection hcontra with h2
        cases h2
      · intro hcontra
        cases hcontra
  · intro hne
    cases hl : candList s query context with
    | nil => exact absurd hl hne
    | cons c cs =>
      obtain ⟨pre, post, hdec, hub, hpre⟩ := maxByProb_spec c cs
      refine ⟨maxByProb c cs, pre, post, ?_, ?_, ?_, hpre⟩
      · simp only [processQuery, hco, hl]
      · exact hdec
      · intro x hx
        exact hub x hx

/-- A concrete query scenario: one stored statement
`justiça:justiça distributiva>necessidade` with probability `0.9` and
condition `crise`. -/
def c4state : DGTM :=
  ⟨"1:2>3(p0.9,4)".toList, [], [("1".toList, "justiça".toList),
    ("2".toList, "justiça distributiva".toList), ("3".toList, "necessidade".toList),
    ("4".toList, "crise".toList)], 5, 10⟩

/-- Witness for C4, realising the specification's first scenario: the query
`justiça` in context `crise` selects the stored statement, yielding the
variable `necessidade` with probability `0.9`. -/
theorem c4_witness :
    candidatesOf c4state ("justiça".toList) ("crise".toList)
      = .ok (candList c4state ("justiça".toList) ("crise".toList)) ∧
    (processQuery c4state ("justiça".toList) ("crise".toList)).2
      = .ok (.found ⟨"justiça distributiva".toList, "necessidade".toList,
          mkRat 9 10, "crise".toList⟩) :=
  ⟨(c4_process_query_selects_first_max c4state ("justiça".toList) ("crise".toList)
      (by decide)).1, by decide⟩

/-- The sort keys of line 197 pair each edge with its probability; the edges
themselves are recovered as the first components. -/
lemma keyedOf_map_fst : ∀ (edges : List Str) (ks : List (Str × ℚ)),
    keyedOf edges = .ok ks → ks.map Prod.fst = edges := by
  intro edges
  induction edges with
  | nil =>
    intro ks h
    simp only [keyedOf] at h
    injection h with h2
    rw [← h2]
    rfl
  | cons e rest ih =>
    intro ks h
    simp only [keyedOf] at h
    cases hp : parseStmt e with
    | none => simp [hp] at h
    | some r =>
      simp only [hp] at h
      cases hq : parseProb r.prob with
      | none => simp [hq] at h
      | some p =>
        simp only [hq] at h
        cases hk : keyedOf rest with
        | error e2 => simp [hk] at h
        | ok ks2 =>
          simp only [hk] at h
          injection h with h2
          rw [← h2]
          simp [ih ks2 hk]

/-- Ordered insertion permutes. -/
lemma insertDesc_perm (x : Str × ℚ) : ∀ l, List.Perm (insertDesc x l) (x :: l) := by
  intro l
  induction l with
  | nil => simp [insertDesc]
  | cons y ys ih =>
    simp only [insertDesc]
    by_cases hc : qle y.2 x.2 = true
    · rw [if_pos hc]
    · rw [if_neg hc]
      exact List.Perm.trans (List.Perm.cons y ih) (List.Perm.swap x y ys)

/-- The sort of line 197 permutes its input. -/
lemma sortDesc_perm : ∀ l, List.Perm (sortDesc l) l := by
  intro l
  induction l with
  | nil => simp [sortDesc]
  | cons x xs ih =>
    simp only [sortDesc]
    exact List.Perm.trans (insertDesc_perm x _) (List.Perm.cons x ih)

/-- Ordered insertion preserves the descending order. -/
lemma insertDesc_sorted (x : Str × ℚ) :
    ∀ l, l.Pairwise (fun a b : Str × ℚ => b.2 ≤ a.2) →
      (insertDesc x l).Pairwise (fun a b : Str × ℚ => b.2 ≤ a.2) := by
  intro l
  induction l with
  | nil => intro _; simp [insertDesc]
  | cons y ys ih =>
    intro h
    rcases List.pairwise_cons.mp h with ⟨hy, hys⟩
    simp only [insertDesc]
    by_cases hc : qle y.2 x.2 = true
    · rw [if_pos hc]
      have hyx : y.2 ≤ x.2 := (qle_iff _ _).mp hc
      refine List.pairwise_cons.mpr ⟨?_, h⟩
      intro z hz
      rcases List.mem_cons.mp hz with rfl | hz2
      · exact hyx
      · exact le_trans (hy z hz2) hyx
    · rw [if_neg hc]
      have hxy : x.2 ≤ y.2 := by
        have hnot : ¬ y.2 ≤ x.2 := fun hle => hc ((qle_iff _ _).mpr hle)
        exact le_of_lt (lt_of_not_le hnot)
      refine List.pairwise_cons.mpr ⟨?_, ih hys⟩
      intro z hz
      have hz3 : z ∈ x :: ys := (insertDesc_perm x ys).mem_iff.mp hz
      rcases List.mem_cons.mp hz3 with rfl | hz2
      · exact hxy
      · exact hy z hz2

/-- The sorted list is in descending probability order. -/
lemma sortDesc_sorted : ∀ l, (sortDesc l).Pairwise (fun a b : Str × ℚ => b.2 ≤ a.2) := by
  intro l
  induction l with
  | nil => simp [sortDesc]
  | cons x xs ih =>
    simp only [sortDesc]
    exact insertDesc_sorted x _ ih

/-- Inserting an element the filter drops leaves the filter unchanged. -/
lemma insertDesc_filter_ne (p : Str × ℚ → Bool) (x : Str × ℚ) (hx : p x = false) :
    ∀ l, (insertDesc x l).filter p = l.filter p := by
  intro l
  induction l with
  | nil => simp [insertDesc, hx]
  | cons y ys ih =>
    simp only [insertDesc]
    by_cases hc : qle y.2 x.2 = true
    · rw [if_pos hc]
      simp [List.filter_cons, hx]
    · rw [if_neg hc]
      simp [List.filter_cons, ih]

/-- On a descending list, an inserted element lands before every element with
an equal key: filtering on its key shows it first (stability of the insertion
relative to the already-placed elements). -/
lemma insertDesc_filter_eq (x : Str × ℚ) :
    ∀ l, l.Pairwise (fun a b : Str × ℚ => b.2 ≤ a.2) →
      (insertDesc x l).filter (fun y => decide (y.2 = x.2))
        = x :: l.filter (fun y => decide (y.2 = x.2)) := by
  intro l
  induction l with
  | nil => intro _; simp [insertDesc]
  | cons y ys ih =>
    intro h
    rcases List.pairwise_cons.mp h with ⟨hy, hys⟩
    simp only [insertDesc]
    by_cases hc : qle y.2 x.2 = true
    · rw [if_pos hc]
      simp [List.filter_cons]
    · rw [if_neg hc]
      have hgt : x.2 < y.2 := lt_of_not_le (fun hle => hc ((qle_iff _ _).mpr hle))
      have hpy : decide (y.2 = x.2) = false := by
        simp
        exact ne_of_gt hgt
      simp [List.filter_cons, hpy, ih hys]

/-- Stability of the full sort: elements sharing a probability key keep their
original relative order (Python `list.sort` is stable). -/
lemma sortDesc_filter : ∀ (l : List (Str × ℚ)) (q : ℚ),
    (sortDesc l).filter (fun y => decide (y.2 = q)) = l.filter (fun y => decide (y.2 = q)) := by
  intro l
  induction l with
  | nil => intro q; simp [sortDesc]
  | cons x xs ih =>
    intro q
    simp only [sortDesc]
    by_cases hq : x.2 = q
    · rw [← hq, insertDesc_filter_eq x (sortDesc xs) (sortDesc_sorted xs), ih x.2]
      simp [List.filter_cons]
    · have hpx : decide (x.2 = q) = false := by simp [hq]
      rw [insertDesc_filter_ne _ x hpx (sortDesc xs), ih q]
      simp [List.filter_cons, hpx]

/-- A pruned group never exceeds the limit. -/
lemma pruneGroup_len (maxE : ℕ) (edges k : List Str)
    (h : pruneGroup maxE edges = .ok k) : k.length ≤ maxE := by
  rw [pruneGroup] at h
  by_cases hlen : edges.length > maxE
  · rw [if_pos hlen] at h
    cases hk : keyedOf edges with
    | error e => simp [hk] at h
    | ok keyed =>
      simp only [hk] at h
      injection h with h2
      rw [← h2, List.length_take]
      omega
  · rw [if_neg hlen] at h
    injection h with h2
    rw [← h2]
    omega

/-- A pruned group keeps only records of the original group. -/
lemma pruneGroup_subset (maxE : ℕ) (edges k : List Str)
    (h : pruneGroup maxE edges = .ok k) : ∀ t ∈ k, t ∈ edges := by
  rw [pruneGroup] at h
  by_cases hlen : edges.length > maxE
  · rw [if_pos hlen] at h
    cases hk : keyedOf edges with
    | error e => simp [hk] at h
    | ok keyed =>
      simp only [hk] at h
      injection h with h2
      intro t ht
      rw [← h2] at ht
      have ht2 : t ∈ (sortDesc keyed).map Prod.fst := List.take_subset _ _ ht
      have ht3 : t ∈ keyed.map Prod.fst :=
        ((sortDesc_perm keyed).map Prod.fst).mem_iff.mp ht2
      rwa [keyedOf_map_fst edges keyed hk] at ht3
  · rw [if_neg hlen] at h
    injection h with h2
    intro t ht
    rwa [← h2] at ht

/-- An oversized group is cut to the first `maxE` of its descending sort. -/
lemma pruneGroup_over (maxE : ℕ) (edges k : List Str)
    (h : pruneGroup maxE edges = .ok k) (hlen : edges.length > maxE) :
    ∃ keyed, keyedOf edges = .ok keyed ∧ k = ((sortDesc keyed).map Prod.fst).take maxE := by
  rw [pruneGroup, if_pos hlen] at h
  cases hk : keyedOf edges with
  | error e => simp [hk] at h
  | ok keyed =>
    simp only [hk] at h
    injection h with h2
    exact ⟨keyed, rfl, h2.symm⟩

/-- A group already within the limit is kept verbatim. -/
lemma pruneGroup_id (maxE : ℕ) (edges : List Str) (h : edges.length ≤ maxE) :
    pruneGroup maxE edges = .ok edges := by
  rw [pruneGroup, if_neg (by omega)]

/-- A pruned group of a duplicate-free group is duplicate-free. -/
lemma pruneGroup_nodup (maxE : ℕ) (edges k : List Str)
    (h : pruneGroup maxE edges = .ok k) (he : edges.Nodup) : k.Nodup := by
  rw [pruneGroup] at h
  by_cases hlen : edges.length > maxE
  · rw [if_pos hlen] at h
    cases hk : keyedOf edges with
    | error e => simp [hk] at h
    | ok keyed =>
      simp only [hk] at h
      injection h with h2
      rw [← h2]
      apply List.Nodup.sublist (List.take_sublist _ _)
      apply ((sortDesc_perm keyed).map Prod.fst).nodup_iff.mpr
      rwa [keyedOf_map_fst edges keyed hk]
  · rw [if_neg hlen] at h
    injection h with h2
    rwa [← h2]

/-- A nonempty surviving group forces a positive limit and a nonempty input. -/
lemma pruneGroup_pos (maxE : ℕ) (edges k : List Str)
    (h : pruneGroup maxE edges = .ok k) (hk : k ≠ []) : 1 ≤ maxE ∧ edges ≠ [] := by
  rw [pruneGroup] at h
  by_cases hlen : edges.length > maxE
  · rw [if_pos hlen] at h
    cases hke : keyedOf edges with
    | error e => simp [hke] at h
    | ok keyed =>
      simp only [hke] at h
      injection h with h2
      constructor
      · by_contra hm
        have hm0 : maxE = 0 := by omega
        rw [hm0] at h2
        simp at h2
        exact hk h2
      · intro he
        rw [he] at hlen
        simp at hlen
  · rw [if_neg hlen] at h
    injection h with h2
    constructor
    · rw [← h2] at hk
      have : edges.length ≥ 1 := by
        cases edges with
        | nil => exact absurd rfl hk
        | cons a t => simp
      omega
    · rwa [← h2] at hk

/-- A pruned nonempty group stays nonempty when the limit is positive. -/
lemma pruneGroup_ne (maxE : ℕ) (edges k : List Str)
    (h : pruneGroup maxE edges = .ok k) (he : edges ≠ []) (hm : 1 ≤ maxE) : k ≠ [] := by
  rw [pruneGroup] at h
  by_cases hlen : edges.length > maxE
  · rw [if_pos hlen] at h
    cases hke : keyedOf edges with
    | error e => simp [hke] at h
    | ok keyed =>
      simp only [hke] at h
      injection h with h2
      rw [← h2]
      intro hnil
      have hlen2 : (((sortDesc keyed).map Prod.fst).take maxE).length = 0 := by
        rw [hnil]; rfl
      rw [List.length_take, List.length_map] at hlen2
      have hpl : (sortDesc keyed).length = keyed.length := (sortDesc_perm keyed).length_eq
      have hkl : keyed.length = edges.length := by
        have := keyedOf_map_fst edges keyed hke
        calc keyed.length = (keyed.map Prod.fst).length := (List.length_map _ _).symm
          _ = edges.length := by rw [this]
      rw [hpl, hkl] at hlen2
      omega
  · rw [if_neg hlen] at h
    injection h with h2
    rwa [← h2]

/-- A group of the `node_edges` dict holds exactly the records of its key,
in encounter order. -/
lemma groupByMain_content : ∀ (L : List Str) (n : Str) (l : List Str),
    (n, l) ∈ groupByMain L → l = L.filter (fun t => decide (mainOf t = some n)) := by
  intro L
  induction L with
  | nil => intro n l h; simp [groupByMain] at h
  | cons s rest ih =>
    intro n l h
    cases hp : parseStmt s with
    | none =>
      simp only [groupByMain, hp] at h
      rw [ih n l h]
      simp [List.filter_cons, mainOf, hp]
    | some r =>
      simp only [groupByMain, hp] at h
      rcases List.mem_cons.mp h with heq | hmem
      · injection heq with hn hl
        subst hn
        subst hl
        simp [List.filter_cons, mainOf, hp]
      · have h2 := List.mem_filter.mp hmem
        have hne : n ≠ r.main := by simpa using h2.2
        have hpred : decide (mainOf s = some n) = false := by
          simp [mainOf, hp]
          exact fun hc => hne hc.symm
        rw [ih n l h2.1]
        simp [List.filter_cons, hpred]

/-- The keys of the `node_edges` dict are pairwise distinct. -/
lemma groupByMain_keys : ∀ L : List Str,
    (groupByMain L).Pairwise (fun a b => a.1 ≠ b.1) := by
  intro L
  induction L with
  | nil => simp [groupByMain]
  | cons s rest ih =>
    cases hp : parseStmt s with
    | none =>
      simp only [groupByMain, hp]
      exact ih
    | some r =>
      simp only [groupByMain, hp]
      refine List.pairwise_cons.mpr ⟨?_, List.Pairwise.filter _ ih⟩
      intro gr hgr
      have h2 : gr.1 ≠ r.main := by simpa using (List.mem_filter.mp hgr).2
      exact fun hc => h2 hc.symm

/-- Every group of the `node_edges` dict is nonempty. -/
lemma groupByMain_ne_nil : ∀ (L : List Str) (n : Str) (l : List Str),
    (n, l) ∈ groupByMain L → l ≠ [] := by
  intro L
  induction L with
  | nil => intro n l h; simp [groupByMain] at h
  | cons s rest ih =>
    intro n l h
    cases hp : parseStmt s with
    | none =>
      simp only [groupByMain, hp] at h
      exact ih n l h
    | some r =>
      simp only [groupByMain, hp] at h
      rcases List.mem_cons.mp h with heq | hmem
      · injection heq with hn hl
        rw [hl]
        simp
      · exact ih n l (List.mem_filter.mp hmem).1

/-- Members of a group match the regex and carry the group's key as main node. -/
lemma groupByMain_members (L : List Str) (n : Str) (l : List Str)
    (h : (n, l) ∈ groupByMain L) : ∀ t ∈ l, mainOf t = some n ∧ t ∈ L := by
  intro t ht
  rw [groupByMain_content L n l h] at ht
  have h2 := List.mem_filter.mp ht
  exact ⟨by simpa using h2.2, h2.1⟩

/-- `mapPrune` relates groups and kept lists pointwise. -/
lemma mapPrune_forall2 (maxE : ℕ) : ∀ (grs : List (Str × List Str)) (ks : List (List Str)),
    mapPrune maxE grs = .ok ks →
    List.Forall₂ (fun gr k => pruneGroup maxE gr.2 = .ok k) grs ks := by
  intro grs
  induction grs with
  | nil =>
    intro ks h
    simp only [mapPrune] at h
    injection h with h2
    rw [← h2]
    exact List.Forall₂.nil
  | cons gr rest ih =>
    intro ks h
    simp only [mapPrune] at h
    cases hpg : pruneGroup maxE gr.2 with
    | error e => simp [hpg] at h
    | ok k =>
      simp only [hpg] at h
      cases hmp : mapPrune maxE rest with
      | error e => simp [hmp] at h
      | ok ks2 =>
        simp only [hmp] at h
        injection h with h2
        rw [← h2]
        exact List.Forall₂.cons hpg (ih ks2 hmp)

/-- Rebuild a pointwise relation together with a fact derived from membership
on the left. -/
lemma forall2_strengthen {α β : Type} {R Q : α → β → Prop} :
    ∀ (l1 : List α) (l2 : List β), List.Forall₂ R l1 l2 →
      (∀ a ∈ l1, ∀ b, R a b → Q a b) →
      List.Forall₂ (fun a b => R a b ∧ Q a b) l1 l2 := by
  intro l1 l2 h
  induction h with
  | nil => intro _; exact List.Forall₂.nil
  | @cons a b t1 t2 h1 h2 ih =>
    intro hall
    exact List.Forall₂.cons ⟨h1, hall a (by simp) b h1⟩
      (ih (fun x hx => hall x (by simp [hx])))

/-- Any element on the right of a pointwise relation has a partner on the left. -/
lemma forall2_mem_right {α β : Type} {R : α → β → Prop} :
    ∀ (l1 : List α) (l2 : List β), List.Forall₂ R l1 l2 →
      ∀ b ∈ l2, ∃ a ∈ l1, R a b := by
  intro l1 l2 h
  induction h with
  | nil => intro b hb; simp at hb
  | @cons a b t1 t2 h1 h2 ih =>
    intro c hc
    rcases List.mem_cons.mp hc with rfl | hc2
    · exact ⟨a, by simp, h1⟩
    · obtain ⟨a2, ha2, hr⟩ := ih c hc2
      exact ⟨a2, by simp [ha2], hr⟩

/-- Records of absent main nodes do not appear in the flattened kept lists. -/
lemma flatten_filter_none (n : Str) :
    ∀ (grs : List (Str × List Str)) (ks : List (List Str)),
      List.Forall₂ (fun gr k => ∀ t ∈ k, mainOf t = some gr.1) grs ks →
      (∀ gr ∈ grs, gr.1 ≠ n) →
      ks.flatten.filter (fun t => decide (mainOf t = some n)) = [] := by
  intro grs ks h
  induction h with
  | nil => intro _; simp
  | @cons a b l1 l2 h1 h2 ih =>
    intro hall
    rw [List.flatten_cons, List.filter_append,
      ih (fun gr hgr => hall gr (List.mem_cons_of_mem _ hgr)), List.append_nil]
    apply List.filter_eq_nil_iff.mpr
    intro t ht
    have hm := h1 t ht
    simp [hm]
    exact fun hc => (hall a (by simp)) hc

/-- The records a pruned graph holds for a present main node are exactly that
node's kept list. -/
lemma flatten_filter_key (maxE : ℕ) (n : Str) :
    ∀ (grs : List (Str × List Str)) (ks : List (List Str)),
      List.Forall₂ (fun gr k => pruneGroup maxE gr.2 = .ok k ∧
        ∀ t ∈ k, mainOf t = some gr.1) grs ks →
      grs.Pairwise (fun a b => a.1 ≠ b.1) →
      ∀ edges, (n, edges) ∈ grs →
        ∃ k, pruneGroup maxE edges = .ok k ∧
          ks.flatten.filter (fun t => decide (mainOf t = some n)) = k := by
  intro grs ks h
  induction h with
  | nil => intro _ edges hmem; simp at hmem
  | @cons a b l1 l2 h1 h2 ih =>
    intro hpw edges hmem
    rcases List.pairwise_cons.mp hpw with ⟨hhead, htail⟩
    rcases List.mem_cons.mp hmem with heq | hmem2
    · subst heq
      refine ⟨b, h1.1, ?_⟩
      rw [List.flatten_cons, List.filter_append]
      have hrest : l2.flatten.filter (fun t => decide (mainOf t = some n)) = [] := by
        apply flatten_filter_none n l1 l2 (List.Forall₂.imp (fun a b hab => hab.2) h2)
        intro gr hgr
        exact fun hc => (hhead gr hgr) hc.symm
      rw [hrest, List.append_nil]
      apply List.filter_eq_self.mpr
      intro t ht
      have hm := h1.2 t ht
      simp [hm]
    · obtain ⟨k, hk1, hk2⟩ := ih htail edges hmem2
      refine ⟨k, hk1, ?_⟩
      rw [List.flatten_cons, List.filter_append, hk2]
      have hb : b.filter (fun t => decide (mainOf t = some n)) = [] := by
        apply List.filter_eq_nil_iff.mpr
        intro t ht
        have hm := h1.2 t ht
        have hne : a.1 ≠ n := by simpa using hhead (n, edges) hmem2
        simp [hm]
        exact hne
      rw [hb, List.nil_append]

/-- Anatomy of a successful `_optimize_text` run: the kept group lists exist,
their members are matched, semicolon-free, nonempty records, the result is
their join, and splitting the result recovers exactly the flattened kept
lists. -/
lemma optimize_shape (maxE : ℕ) (g h : Str) (hok : optimizeText maxE g = .ok h) :
    ∃ ks, mapPrune maxE (groupByMain (dedupFirst (splitSemi g))) = .ok ks ∧
      (∀ t ∈ ks.flatten, (∃ n0, mainOf t = some n0) ∧ ';' ∉ t ∧ t ≠ []) ∧
      h = joinSemi ks.flatten ∧
      (∀ n, recordsOfMain n h = ks.flatten.filter (fun t => decide (mainOf t = some n))) := by
  simp only [optimizeText] at hok
  cases hmp : mapPrune maxE (groupByMain (dedupFirst (splitSemi g))) with
  | error e => simp [hmp] at hok
  | ok ks =>
    simp only [hmp] at hok
    injection hok with h2
    have hmem : ∀ t ∈ ks.flatten, (∃ n0, mainOf t = some n0) ∧ ';' ∉ t ∧ t ≠ [] := by
      intro t ht
      obtain ⟨k, hk, htk⟩ := List.mem_flatten.mp ht
      have hf2 := mapPrune_forall2 maxE _ ks hmp
      obtain ⟨gr, hgr, hpg⟩ := forall2_mem_right _ _ hf2 k hk
      have hsub := pruneGroup_subset maxE gr.2 k hpg t htk
      have hmm := groupByMain_members (dedupFirst (splitSemi g)) gr.1 gr.2
        (by rw [Prod.mk.eta]; exact hgr) t hsub
      refine ⟨⟨gr.1, hmm.1⟩, ?_, ?_⟩
      · exact splitSemi_chunks g t (dedupFirst_subset _ t hmm.2)
      · cases hps : parseStmt t with
        | none =>
          have hcontra := hmm.1
          rw [mainOf, hps] at hcontra
          simp at hcontra
        | some r => exact parseStmt_ne_nil t r hps
    have hfil : ks.flatten.filter (fun s => s ≠ []) = ks.flatten := by
      apply List.filter_eq_self.mpr
      intro t ht
      simpa using (hmem t ht).2.2
    rw [hfil] at h2
    refine ⟨ks, rfl, hmem, h2.symm, ?_⟩
    intro n
    rw [recordsOfMain, ← h2]
    cases hks : ks.flatten with
    | nil =>
      have hnil : mainOf ([] : Str) = none := rfl
      simp [joinSemi, splitSemi, hnil]
    | cons c cs =>
      rw [splitSemi_joinSemi (c :: cs) (by simp)
        (fun x hx => (hmem x (by rw [hks]; exact hx)).2.1)]

/-- After a successful prune, the records stored for a grouped main node are
exactly its pruned group. -/
lemma optimize_key_records (maxE : ℕ) (g h : Str) (hok : optimizeText maxE g = .ok h)
    (n : Str) (edges : List Str)
    (hmem : (n, edges) ∈ groupByMain (dedupFirst (splitSemi g))) :
    ∃ k, pruneGroup maxE edges = .ok k ∧ recordsOfMain n h = k := by
  obtain ⟨ks, hmp, hm, hh, hrec⟩ := optimize_shape maxE g h hok
  have hf2 := forall2_strengthen _ _ (mapPrune_forall2 maxE _ ks hmp)
    (fun gr hgr k hk => fun t ht =>
      (groupByMain_members _ gr.1 gr.2 (by rw [Prod.mk.eta]; exact hgr) t
        (pruneGroup_subset maxE gr.2 k hk t ht)).1)
  obtain ⟨k, hk1, hk2⟩ := flatten_filter_key maxE n _ ks hf2 (groupByMain_keys _) edges hmem
  exact ⟨k, hk1, by rw [hrec n, hk2]⟩

/-- The fan-out invariant after a successful prune. -/
lemma optimize_fanout (maxE : ℕ) (g h : Str) (hok : optimizeText maxE g = .ok h)
    (n : Str) : fanout n h ≤ maxE := by
  obtain ⟨ks, hmp, hm, hh, hrec⟩ := optimize_shape maxE g h hok
  by_cases hex : ∃ edges, (n, edges) ∈ groupByMain (dedupFirst (splitSemi g))
  · obtain ⟨edges, hedges⟩ := hex
    obtain ⟨k, hk1, hk2⟩ := optimize_key_records maxE g h hok n edges hedges
    rw [fanout, hk2]
    exact pruneGroup_len maxE edges k hk1
  · push_neg at hex
    have hkeys : ∀ gr ∈ groupByMain (dedupFirst (splitSemi g)), gr.1 ≠ n := by
      intro gr hgr hc
      exact hex gr.2 (by rw [← hc, Prod.mk.eta]; exact hgr)
    have hf2 := forall2_strengthen _ _ (mapPrune_forall2 maxE _ ks hmp)
      (fun gr hgr k hk => fun t ht =>
        (groupByMain_members _ gr.1 gr.2 (by rw [Prod.mk.eta]; exact hgr) t
          (pruneGroup_subset maxE gr.2 k hk t ht)).1)
    rw [fanout, hrec n, flatten_filter_none n _ ks
      (List.Forall₂.imp (fun a b hab => hab.2) hf2) hkeys]
    simp

/-- C1 — after a successful prune every main node's fan-out is at most
`max_edges_per_node`, and a node whose (deduplicated) group exceeded the limit
keeps exactly the first `maxE` records of the stable descending sort of its
group by probability: the kept records are a maximal-probability selection
(the sort permutes the group, is in descending order, and preserves the
original relative order of equal probabilities). -/
theorem c1_prune_caps_fanout_keeps_top (maxE : ℕ) (g h : Str)
    (hok : optimizeText maxE g = .ok h) :
    (∀ n, fanout n h ≤ maxE) ∧
    (∀ n edges, (n, edges) ∈ groupByMain (dedupFirst (splitSemi g)) →
      edges.length > maxE →
      ∃ keyed, keyedOf edges = .ok keyed ∧ keyed.map Prod.fst = edges ∧
        recordsOfMain n h = ((sortDesc keyed).map Prod.fst).take maxE ∧
        List.Perm (sortDesc keyed) keyed ∧
        (sortDesc keyed).Pairwise (fun a b : Str × ℚ => b.2 ≤ a.2) ∧
        (∀ q, (sortDesc keyed).filter (fun y => decide (y.2 = q))
            = keyed.filter (fun y => decide (y.2 = q)))) := by
  refine ⟨optimize_fanout maxE g h hok, ?_⟩
  intro n edges hmem hlen
  obtain ⟨k, hk1, hk2⟩ := optimize_key_records maxE g h hok n edges hmem
  obtain ⟨keyed, hke, hkeq⟩ := pruneGroup_over maxE edges k hk1 hlen
  exact ⟨keyed, hke, keyedOf_map_fst edges keyed hke, by rw [hk2, hkeq],
    sortDesc_perm keyed, sortDesc_sorted keyed, sortDesc_filter keyed⟩

/-- Eleven distinct relations sharing the main token `5`, probabilities
descending from `0.99` to `0.89`, as (statement, probability) ingest pairs. -/
def c1pairs : List (Str × ℚ) :=
  [("5:1>1(p0.99,9)".toList, mkRat 99 100), ("5:2>2(p0.98,9)".toList, mkRat 98 100),
   ("5:3>3(p0.97,9)".toList, mkRat 97 100), ("5:4>4(p0.96,9)".toList, mkRat 96 100),
   ("5:5>5(p0.95,9)".toList, mkRat 95 100), ("5:6>6(p0.94,9)".toList, mkRat 94 100),
   ("5:7>7(p0.93,9)".toList, mkRat 93 100), ("5:8>8(p0.92,9)".toList, mkRat 92 100),
   ("5:9>9(p0.91,9)".toList, mkRat 91 100), ("5:1>2(p0.90,9)".toList, mkRat 90 100),
   ("5:1>3(p0.89,9)".toList, mkRat 89 100)]

/-- The graph text after ingesting the eleven relations into an empty graph. -/
def c1g11 : Str :=
  ("5:1>1(p0.99,9);5:2>2(p0.98,9);5:3>3(p0.97,9);5:4>4(p0.96,9);5:5>5(p0.95,9);" ++
   "5:6>6(p0.94,9);5:7>7(p0.93,9);5:8>8(p0.92,9);5:9>9(p0.91,9);5:1>2(p0.90,9);" ++
   "5:1>3(p0.89,9)").toList

/-- The graph text after pruning with `max_edges_per_node = 10`: the ten
highest-probability statements of node `5`. -/
def c1h10 : Str :=
  ("5:1>1(p0.99,9);5:2>2(p0.98,9);5:3>3(p0.97,9);5:4>4(p0.96,9);5:5>5(p0.95,9);" ++
   "5:6>6(p0.94,9);5:7>7(p0.93,9);5:8>8(p0.92,9);5:9>9(p0.91,9);5:1>2(p0.90,9)").toList

/-- Witness for C1, realising the specification's scenario: ingesting eleven
distinct relations on main node `5` with `max_edges_per_node = 10` and pruning
leaves exactly the ten highest-probability statements for that node, and every
node of the pruned graph respects the fan-out cap. -/
theorem c1_witness :
    ingestList [] c1pairs = .ok c1g11 ∧
    optimizeText 10 c1g11 = .ok c1h10 ∧
    fanout ("5".toList) c1g11 = 11 ∧
    fanout ("5".toList) c1h10 = 10 ∧
    recordsOfMain ("5".toList) c1h10 = splitSemi c1h10 ∧
    (∀ n, fanout n c1h10 ≤ 10) :=
  ⟨by decide, by decide, by decide, by decide, by decide,
   (c1_prune_caps_fanout_keeps_top 10 c1g11 c1h10 (by decide)).1⟩

/-- Grouping a uniform nonempty block followed by records of other main nodes:
the block becomes the first group. -/
lemma groupByMain_uniform_block (n : Str) :
    ∀ (k R : List Str), (∀ t ∈ k, mainOf t = some n) → (∀ t ∈ R, mainOf t ≠ some n) →
      k ≠ [] →
      groupByMain (k ++ R) = (n, k) :: (groupByMain R).filter (fun gr => gr.1 ≠ n) := by
  intro k
  induction k with
  | nil => intro R _ _ hne; exact absurd rfl hne
  | cons t k2 ih =>
    intro R hk hR _
    have hmt : mainOf t = some n := hk t (by simp)
    obtain ⟨r, hr⟩ : ∃ r, parseStmt t = some r := by
      cases hps : parseStmt t with
      | none => rw [mainOf, hps] at hmt; simp at hmt
      | some r => exact ⟨r, rfl⟩
    have hrm : r.main = n := by
      rw [mainOf, hr] at hmt
      simpa using hmt
    subst hrm
    rw [List.cons_append]
    simp only [groupByMain, hr]
    have hfk : (k2 ++ R).filter (fun t2 => decide (mainOf t2 = some r.main)) = k2 := by
      rw [List.filter_append]
      have h1 : k2.filter (fun t2 => decide (mainOf t2 = some r.main)) = k2 :=
        List.filter_eq_self.mpr (fun a ha => by simp [hk a (by simp [ha])])
      have h2 : R.filter (fun t2 => decide (mainOf t2 = some r.main)) = [] :=
        List.filter_eq_nil_iff.mpr (fun a ha => by simp [hR a ha])
      rw [h1, h2, List.append_nil]
    rw [hfk]
    by_cases hk2 : k2 = []
    · subst hk2
      simp
    · rw [ih R (fun a ha => hk a (by simp [ha])) hR hk2]
      rw [List.filter_cons]
      have hp : decide ((r.main, k2).1 ≠ r.main) = false := by simp
      simp [hp, List.filter_filter]

/-- Grouping a flattened list of nonempty uniform blocks with pairwise
distinct keys recovers the blocks. -/
lemma groupByMain_blocks :
    ∀ (ps : List (Str × List Str)),
      (∀ p ∈ ps, p.2 ≠ [] ∧ ∀ t ∈ p.2, mainOf t = some p.1) →
      ps.Pairwise (fun a b => a.1 ≠ b.1) →
      groupByMain (ps.map Prod.snd).flatten = ps := by
  intro ps
  induction ps with
  | nil => intro _ _; rfl
  | cons p rest ih =>
    intro hall hpw
    rcases List.pairwise_cons.mp hpw with ⟨hhead, htail⟩
    rw [List.map_cons, List.flatten_cons]
    have hR : ∀ t ∈ (rest.map Prod.snd).flatten, mainOf t ≠ some p.1 := by
      intro t ht hc
      obtain ⟨l, hl, htl⟩ := List.mem_flatten.mp ht
      obtain ⟨q, hq, hql⟩ := List.mem_map.mp hl
      have hmq := (hall q (by simp [hq])).2 t (by rw [hql]; exact htl)
      rw [hmq] at hc
      injection hc with hc2
      exact hhead q hq hc2.symm
    rw [groupByMain_uniform_block p.1 p.2 ((rest.map Prod.snd).flatten)
      ((hall p (by simp)).2) hR ((hall p (by simp)).1)]
    rw [ih (fun q hq => hall q (by simp [hq])) htail, Prod.mk.eta]
    congr 1
    apply List.filter_eq_self.mpr
    intro q hq
    simp
    exact fun hc => hhead q hq hc.symm

/-- Pruning groups that already respect the limit keeps them verbatim. -/
lemma mapPrune_blocks (maxE : ℕ) :
    ∀ (ps : List (Str × List Str)),
      (∀ p ∈ ps, p.2.length ≤ maxE) →
      mapPrune maxE ps = .ok (ps.map Prod.snd) := by
  intro ps
  induction ps with
  | nil => intro _; rfl
  | cons p rest ih =>
    intro hall
    simp only [mapPrune, pruneGroup_id maxE p.2 (hall p (by simp)),
      ih (fun q hq => hall q (by simp [hq])), List.map_cons]

/-- A flattening of duplicate-free uniform blocks with distinct keys is
duplicate-free. -/
lemma flatten_nodup_blocks :
    ∀ (ps : List (Str × List Str)),
      (∀ p ∈ ps, p.2.Nodup ∧ ∀ t ∈ p.2, mainOf t = some p.1) →
      ps.Pairwise (fun a b => a.1 ≠ b.1) →
      (ps.map Prod.snd).flatten.Nodup := by
  intro ps
  induction ps with
  | nil => intro _ _; simp
  | cons p rest ih =>
    intro hall hpw
    rcases List.pairwise_cons.mp hpw with ⟨hhead, htail⟩
    rw [List.map_cons, List.flatten_cons]
    apply List.Nodup.append ((hall p (by simp)).1) (ih (fun q hq => hall q (by simp [hq])) htail)
    intro t ht1 ht2
    obtain ⟨l, hl, htl⟩ := List.mem_flatten.mp ht2
    obtain ⟨q, hq, hql⟩ := List.mem_map.mp hl
    have h1 := (hall p (by simp)).2 t ht1
    have h2 := (hall q (by simp [hq])).2 t (by rw [hql]; exact htl)
    rw [h1] at h2
    injection h2 with h3
    exact hhead q hq h3

/-- The second components of the key/kept zip are the kept lists. -/
lemma zipWith_snd : ∀ (grs : List (Str × List Str)) (ks : List (List Str)),
    grs.length = ks.length →
    (List.zipWith (fun (gr : Str × List Str) (k : List Str) => (gr.1, k)) grs ks).map Prod.snd
      = ks := by
  intro grs
  induction grs with
  | nil =>
    intro ks h
    cases ks with
    | nil => rfl
    | cons k t => simp at h
  | cons gr grs2 ih =>
    intro ks h
    cases ks with
    | nil => simp at h
    | cons k ks2 =>
      rw [List.zipWith_cons_cons, List.map_cons, ih ks2 (by simpa using h)]

/-- Every pair of the key/kept zip carries a key of its group list. -/
lemma zipWith_keys_mem :
    ∀ (grs : List (Str × List Str)) (ks : List (List Str)) (p : Str × List Str),
      p ∈ List.zipWith (fun (gr : Str × List Str) (k : List Str) => (gr.1, k)) grs ks →
      ∃ gr ∈ grs, p.1 = gr.1 := by
  intro grs
  induction grs with
  | nil => intro ks p hp; simp at hp
  | cons gr grs2 ih =>
    intro ks p hp
    cases ks with
    | nil => simp at hp
    | cons k ks2 =>
      rw [List.zipWith_cons_cons] at hp
      rcases List.mem_cons.mp hp with rfl | hp2
      · exact ⟨gr, by simp, rfl⟩
      · obtain ⟨gr2, hgr2, hp1⟩ := ih ks2 p hp2
        exact ⟨gr2, by simp [hgr2], hp1⟩

/-- The key/kept zip keeps the keys pairwise distinct. -/
lemma zipWith_keys_pairwise :
    ∀ (grs : List (Str × List Str)) (ks : List (List Str)),
      grs.Pairwise (fun a b => a.1 ≠ b.1) →
      (List.zipWith (fun (gr : Str × List Str) (k : List Str) => (gr.1, k)) grs ks).Pairwise
        (fun a b => a.1 ≠ b.1) := by
  intro grs
  induction grs with
  | nil => intro ks _; simp
  | cons gr grs2 ih =>
    intro ks hpw
    rcases List.pairwise_cons.mp hpw with ⟨hhead, htail⟩
    cases ks with
    | nil => simp
    | cons k ks2 =>
      rw [List.zipWith_cons_cons]
      refine List.pairwise_cons.mpr ⟨?_, ih ks2 htail⟩
      intro q hq
      obtain ⟨gr2, hgr2, hq1⟩ := zipWith_keys_mem grs2 ks2 q hq
      rw [hq1]
      exact hhead gr2 hgr2

/-- A pair of the key/kept zip decomposes into a group and its kept list. -/
lemma zipWith_mem_forall2 {R : (Str × List Str) → List Str → Prop} :
    ∀ (grs : List (Str × List Str)) (ks : List (List Str)),
      List.Forall₂ R grs ks →
      ∀ p ∈ List.zipWith (fun (gr : Str × List Str) (k : List Str) => (gr.1, k)) grs ks,
        ∃ gr k, gr ∈ grs ∧ R gr k ∧ p = (gr.1, k) := by
  intro grs ks h
  induction h with
  | nil => intro p hp; simp at hp
  | @cons a b t1 t2 h1 h2 ih =>
    intro p hp
    rw [List.zipWith_cons_cons] at hp
    rcases List.mem_cons.mp hp with rfl | hp2
    · exact ⟨a, b, by simp, h1, rfl⟩
    · obtain ⟨gr, k, hgr, hr, hpk⟩ := ih p hp2
      exact ⟨gr, k, by simp [hgr], hr, hpk⟩

/-- A node's fan-out is bounded by the number of records. -/
lemma fanout_le_split (n : Str) (g : Str) : fanout n g ≤ (splitSemi g).length :=
  List.length_filter_le _ _

/-- A three-statement graph whose nodes `1` (fan-out 2) and `2` (fan-out 1)
both respect a limit of 10, with the records of node `1` not contiguous. -/
def c7g0 : Str := "1:1>1(p0.5,1);2:1>1(p0.5,1);1:2>2(p0.5,1)".toList

/-- What pruning `c7g0` returns: the same records regrouped by main node. -/
def c7g1 : Str := "1:1>1(p0.5,1);1:2>2(p0.5,1);2:1>1(p0.5,1)".toList

/-- Counterexample for C7: a graph already satisfying the fan-out limit on
every node is nevertheless rewritten by `_optimize_text`, which regroups the
records of each main node contiguously in first-occurrence order — pruning a
compliant graph is not a no-op. -/
theorem c7_counterexample_compliant_not_noop :
    (∀ n, fanout n c7g0 ≤ 10) ∧
    optimizeText 10 c7g0 = .ok c7g1 ∧
    c7g1 ≠ c7g0 :=
  ⟨fun n => le_trans (fanout_le_split n c7g0) (by decide), by decide, by decide⟩

/-- C7 (amended) — `_optimize_text` is idempotent: pruning the output of a
successful prune returns that output unchanged.  (The no-op half of the
original claim fails: see the counterexample; the fixed points are the already
pruned graphs, not the merely fan-out-compliant ones.) -/
theorem c7_amended_prune_idempotent (maxE : ℕ) (g h : Str)
    (hok : optimizeText maxE g = .ok h) : optimizeText maxE h = .ok h := by
  obtain ⟨ks, hmp, hm, hh, hrec⟩ := optimize_shape maxE g h hok
  cases hks : ks.flatten with
  | nil =>
    have hh2 : h = [] := by rw [hh, hks]; rfl
    rw [hh2]
    rfl
  | cons c cs =>
    have hf2base := mapPrune_forall2 maxE _ ks hmp
    have hlen : (groupByMain (dedupFirst (splitSemi g))).length = ks.length :=
      hf2base.length_eq
    have hf2 := forall2_strengthen
      (Q := fun (gr : Str × List Str) (k : List Str) =>
        (∀ t ∈ k, mainOf t = some gr.1) ∧ k.Nodup ∧ gr.2 ≠ [])
      _ _ hf2base
      (fun gr hgr k hk =>
        ⟨fun t ht =>
          (groupByMain_members _ gr.1 gr.2 (by rw [Prod.mk.eta]; exact hgr) t
            (pruneGroup_subset maxE gr.2 k hk t ht)).1,
         pruneGroup_nodup maxE gr.2 k hk
           (by
             rw [groupByMain_content _ gr.1 gr.2 (by rw [Prod.mk.eta]; exact hgr)]
             exact List.Nodup.filter _ (dedupFirst_nodup _)),
         groupByMain_ne_nil _ gr.1 gr.2 (by rw [Prod.mk.eta]; exact hgr)⟩)
    have hmaxE : 1 ≤ maxE := by
      have hc : c ∈ ks.flatten := by rw [hks]; simp
      obtain ⟨k, hk, hck⟩ := List.mem_flatten.mp hc
      obtain ⟨gr, hgr, hpg⟩ := forall2_mem_right _ _ hf2base k hk
      exact (pruneGroup_pos maxE gr.2 k hpg (by intro hnil; rw [hnil] at hck; simp at hck)).1
    have hall : ∀ p ∈ List.zipWith
        (fun (gr : Str × List Str) (k : List Str) => (gr.1, k))
        (groupByMain (dedupFirst (splitSemi g))) ks,
        (p.2 ≠ [] ∧ ∀ t ∈ p.2, mainOf t = some p.1) ∧ p.2.Nodup ∧ p.2.length ≤ maxE := by
      intro p hp
      obtain ⟨gr, k, hgr, ⟨hpg, hmain, hnd, hne⟩, hpk⟩ := zipWith_mem_forall2 _ _ hf2 p hp
      rw [hpk]
      exact ⟨⟨pruneGroup_ne maxE gr.2 k hpg hne hmaxE, hmain⟩, hnd,
        pruneGroup_len maxE gr.2 k hpg⟩
    have hpw := zipWith_keys_pairwise (groupByMain (dedupFirst (splitSemi g))) ks
      (groupByMain_keys _)
    have hsnd := zipWith_snd (groupByMain (dedupFirst (splitSemi g))) ks hlen
    have hKnodup : ks.flatten.Nodup := by
      have := flatten_nodup_blocks _ (fun p hp => ⟨(hall p hp).2.1, (hall p hp).1.2⟩) hpw
      rwa [hsnd] at this
    have hsplit : splitSemi h = ks.flatten := by
      rw [hh, hks]
      exact splitSemi_joinSemi (c :: cs) (by simp)
        (fun x hx => (hm x (by rw [hks]; exact hx)).2.1)
    have hgroup : groupByMain ks.flatten
        = List.zipWith (fun (gr : Str × List Str) (k : List Str) => (gr.1, k))
            (groupByMain (dedupFirst (splitSemi g))) ks := by
      have := groupByMain_blocks _ (fun p hp => (hall p hp).1) hpw
      rwa [hsnd] at this
    have hmp2 : mapPrune maxE (groupByMain ks.flatten) = .ok ks := by
      rw [hgroup, mapPrune_blocks maxE _ (fun p hp => (hall p hp).2.2), hsnd]
    have hfil : ks.flatten.filter (fun s => s ≠ []) = ks.flatten := by
      apply List.filter_eq_self.mpr
      intro t ht
      simpa using (hm t ht).2.2
    simp only [optimizeText, hsplit, dedupFirst_eq_self _ hKnodup, hmp2, hfil]
    rw [← hh]

/-- Witness for C7's amended claim: pruning the pruned counterexample graph
returns it unchanged. -/
theorem c7_amended_witness :
    optimizeText 10 c7g0 = .ok c7g1 ∧ optimizeText 10 c7g1 = .ok c7g1 :=
  ⟨by decide, c7_amended_prune_idempotent 10 c7g0 c7g1 (by decide)⟩

end DGTMModel
